import Mathlib

/-!
Verification of the CSG cell core of `include/openmc/cell.h`.

The header declares the region-expression (RPN) machinery of `CSGCell`
(`contains_simple`, `contains_complex`, `apply_demorgan`,
`remove_complement_ops`, `find_left_parenthesis`, `bounding_box_simple`,
`bounding_box_complex`), the instance-resolution interface of `Cell`
(`find_parent_cells`, `exhaustive_find_parent_cells`,
`get_contained_cells`), the rotation setter `set_rotation`, and the value
types `CellInstance` / `CellInstanceHash` (the latter two with inline
bodies).  Function bodies other than the two inline ones are not part of
the sources, so those operations are modelled from the specification text;
each such definition says so in its doc comment.
-/

namespace Openmc

/-! ## Operator tokens (from `cell.h`, lines 32-36)

`constexpr int32_t OP_LEFT_PAREN {std::numeric_limits<int32_t>::max()};`
and the four following constants.  Tokens live in `Int`; the operator
sentinels are the five largest int32 values, distinguishable from every
valid signed surface token. -/

def OP_LEFT_PAREN : Int := 2147483647

def OP_RIGHT_PAREN : Int := 2147483646

def OP_COMPLEMENT : Int := 2147483645

def OP_INTERSECTION : Int := 2147483644

def OP_UNION : Int := 2147483643

/-- A signed surface token: nonzero, and in the int32 range strictly below
the operator sentinels (`cell.h` reserves the top five int32 values for
operators). -/
def validSurf (s : Int) : Bool := s ≠ 0 && -OP_UNION < s && s < OP_UNION

/-! ## Region expressions

The spec's Region Expression: a well-formed boolean expression over signed
surface tokens.  `toRPN` is its postfix translation (spec section 3: "RPN
form: the postfix translation of the Region Expression"). -/

/-- Abstract syntax of a region expression: surface half-space leaves and
the `INTERSECTION`, `UNION` and `COMPLEMENT` operators. -/
inductive RExpr : Type where
  | surf (s : Int) : RExpr
  | inter (a b : RExpr) : RExpr
  | union (a b : RExpr) : RExpr
  | compl (a : RExpr) : RExpr
deriving DecidableEq

/-- Postfix (RPN) translation of a region expression. -/
def toRPN : RExpr → List Int
  | .surf s => [s]
  | .inter a b => toRPN a ++ toRPN b ++ [OP_INTERSECTION]
  | .union a b => toRPN a ++ toRPN b ++ [OP_UNION]
  | .compl a => toRPN a ++ [OP_COMPLEMENT]

/-- Well-formedness: every leaf carries a valid surface token. -/
def wf : RExpr → Bool
  | .surf s => validSurf s
  | .inter a b => wf a && wf b
  | .union a b => wf a && wf b
  | .compl a => wf a

/-- The expression uses only surfaces and intersections (the spec's
"pure AND-of-half-spaces"). -/
def simpleOnly : RExpr → Bool
  | .surf _ => true
  | .inter a b => simpleOnly a && simpleOnly b
  | .union _ _ => false
  | .compl _ => false

/-- The expression contains no complement operator. -/
def noCompl : RExpr → Bool
  | .surf _ => true
  | .inter a b => noCompl a && noCompl b
  | .union a b => noCompl a && noCompl b
  | .compl _ => false

/-- Number of complement nodes in an expression. -/
def complCountE : RExpr → Nat
  | .surf _ => 0
  | .inter a b => complCountE a + complCountE b
  | .union a b => complCountE a + complCountE b
  | .compl a => complCountE a + 1

/-- Reference semantics of a region expression at a query point.  The
external Surface sense primitive (spec section 6) is abstracted as
`sp : Int → Bool`, giving the half-space test result of each signed
surface token at the query point (`u` and `on_surface` only influence how
`sp` is produced by the Surface abstraction). -/
def evalE (sp : Int → Bool) : RExpr → Bool
  | .surf s => sp s
  | .inter a b => evalE sp a && evalE sp b
  | .union a b => evalE sp a || evalE sp b
  | .compl a => !evalE sp a

/-- A sense assignment is coherent: the test for the opposite sign of a
surface is the negation of the test for the surface (spec section 3: the
"sign selects which side is inside"). -/
def SenseOK (sp : Int → Bool) : Prop := ∀ s : Int, s ≠ 0 → sp (-s) = !sp s

/-! ## Region evaluator (`CSGCell::contains_simple` / `contains_complex`)

Modelled from the spec, section 4.1: the bodies are declared in `cell.h`
(lines 248-249) but are not part of the sources. -/

/-- Modelled from the spec: one step of `CSGCell::contains_complex`'s
stack evaluation.  "For a surface token, push its sense test result.  For
`COMPLEMENT`, pop one value and push its negation.  For
`INTERSECTION`/`UNION`, pop two and push their AND/OR.  Parenthesis tokens
carry no runtime evaluation action."  Stack underflow yields `none`. -/
def evalTok (sp : Int → Bool) (st : Option (List Bool)) (t : Int) :
    Option (List Bool) :=
  match st with
  | none => none
  | some s =>
    if t = OP_UNION then
      match s with
      | a :: b :: r => some ((b || a) :: r)
      | _ => none
    else if t = OP_INTERSECTION then
      match s with
      | a :: b :: r => some ((b && a) :: r)
      | _ => none
    else if t = OP_COMPLEMENT then
      match s with
      | a :: r => some ((!a) :: r)
      | _ => none
    else if t = OP_LEFT_PAREN ∨ t = OP_RIGHT_PAREN then some s
    else some (sp t :: s)

/-- Modelled from the spec: `CSGCell::contains_complex` evaluates the RPN
on an explicit boolean stack; "at the end of the scan exactly one boolean
remains on the stack; that is the result". -/
def contains_complex (rpn : List Int) (sp : Int → Bool) : Option Bool :=
  match rpn.foldl (evalTok sp) (some []) with
  | some (b :: _) => some b
  | _ => none

/-- Modelled from the spec: `CSGCell::contains_simple` evaluates "the AND
of all half-space senses in the RPN with short-circuit exit".  Operator
tokens (all of which are `≥ OP_UNION`) are skipped. -/
def contains_simple (rpn : List Int) (sp : Int → Bool) : Bool :=
  rpn.all (fun t => if t < OP_UNION then sp t else true)

/-- Modelled from the spec: the `simple_` flag computed at construction;
"`simple` flag is true iff the RPN contains no `UNION` and no
`COMPLEMENT` token". -/
def computeSimple (rpn : List Int) : Bool :=
  rpn.all (fun t => !(t = OP_UNION || t = OP_COMPLEMENT))

/-- Modelled from the spec: `CSGCell::contains` dispatches on the
`simple_` flag between the short-circuit path and the stack path. -/
def contains (rpn : List Int) (simple : Bool) (sp : Int → Bool) :
    Option Bool :=
  if simple then some (contains_simple rpn sp) else contains_complex rpn sp

/-- The constructed cell data relevant to the region expression: the RPN
and the `simple_` flag (`cell.h`, lines 206-207).  Modelled from the spec:
construction "builds the Region Expression and its RPN once". -/
structure CellModel where
  rpn_ : List Int
  simple_ : Bool

/-- Modelled from the spec: constructing a `CSGCell` from its region
expression computes the RPN and the `simple_` flag. -/
def mkCSGCell (region : RExpr) : CellModel :=
  ⟨toRPN region, computeSimple (toRPN region)⟩

/-! ## Boolean simplifier (`CSGCell::apply_demorgan`,
`find_left_parenthesis`, `remove_complement_ops`)

Modelled from the spec, section 4.2: the bodies are declared in `cell.h`
(lines 253-269) but are not part of the sources. -/

/-- Modelled from the spec: the per-token action of
`CSGCell::apply_demorgan` — "negate each leaf surface token's sign, and
swap every `INTERSECTION` / `UNION` operator within the span". Tokens at
or above `OP_UNION` other than the two binary operators are left alone. -/
def demorganTok (t : Int) : Int :=
  if t = OP_UNION then OP_INTERSECTION
  else if t = OP_INTERSECTION then OP_UNION
  else if t < OP_UNION then -t
  else t

/-- Modelled from the spec: `CSGCell::apply_demorgan` applies
`demorganTok` to every token of the given span. -/
def apply_demorgan (ts : List Int) : List Int := ts.map demorganTok

/-- Index of the first `OP_COMPLEMENT` token, if any (the
`std::find`-style scan of `remove_complement_ops`). -/
def firstCompl : List Int → Option Nat
  | [] => none
  | t :: ts =>
    if t = OP_COMPLEMENT then some 0 else (firstCompl ts).map (· + 1)

/-- Modelled from the spec: `CSGCell::find_left_parenthesis` locates the
beginning of the sub-expression a complement applies to, walking backward
from position `j` through the RPN while tracking how many sub-expression
values are still `need`ed: a binary operator needs one more operand pair,
a surface token supplies a value.  It returns the position where the
outstanding need is exhausted — "the position immediately preceding the
matched opening pair". -/
def find_left_parenthesis (rpn : List Int) : Nat → Int → Nat
  | 0, _ => 0
  | j + 1, need =>
    let t := rpn.getD j 0
    let need1 :=
      if t = OP_INTERSECTION ∨ t = OP_UNION then need + 1
      else if t = OP_COMPLEMENT then need
      else need - 1
    if need1 = 0 then j else find_left_parenthesis rpn j need1

/-- Modelled from the spec: the rewriting loop of
`CSGCell::remove_complement_ops` — "scan for `COMPLEMENT` tokens; ...
locate the matching opening parenthesis by scanning backward ..., then
apply De Morgan's law over that span ...; repeat until no `COMPLEMENT`
tokens remain".  The loop consumes explicit fuel; each iteration erases
one complement token, so `rpn.length` rounds always suffice. -/
def remove_complement_loop : Nat → List Int → List Int
  | 0, rpn => rpn
  | n + 1, rpn =>
    match firstCompl rpn with
    | none => rpn
    | some i =>
      let s := find_left_parenthesis rpn i 1
      remove_complement_loop n
        (rpn.take s ++ apply_demorgan ((rpn.drop s).take (i - s)) ++
          rpn.drop (i + 1))

/-- Modelled from the spec: `CSGCell::remove_complement_ops`. -/
def remove_complement_ops (rpn : List Int) : List Int :=
  remove_complement_loop rpn.length rpn

/-! ## AST-level De Morgan normalisation (specification side)

`dual` and `elimCompl` express, on the abstract syntax, what the token
rewriting is proved to compute; `replaceFirst` performs one rewriting step
(eliminating the complement whose RPN position is first). -/

/-- De Morgan dual: negate leaves, swap intersections and unions. -/
def dual : RExpr → RExpr
  | .surf s => .surf (-s)
  | .inter a b => .union (dual a) (dual b)
  | .union a b => .inter (dual a) (dual b)
  | .compl a => .compl (dual a)

/-- Push every complement to the leaves via De Morgan's laws. -/
def elimCompl : RExpr → RExpr
  | .surf s => .surf s
  | .inter a b => .inter (elimCompl a) (elimCompl b)
  | .union a b => .union (elimCompl a) (elimCompl b)
  | .compl a => dual (elimCompl a)

/-- Replace the complement node whose token position is first in the RPN
(the leftmost-innermost one) by the dual of its operand. -/
def replaceFirst : RExpr → RExpr
  | .surf s => .surf s
  | .inter a b =>
    if noCompl a then .inter a (replaceFirst b)
    else .inter (replaceFirst a) b
  | .union a b =>
    if noCompl a then .union a (replaceFirst b)
    else .union (replaceFirst a) b
  | .compl a => if noCompl a then dual a else .compl (replaceFirst a)

/-! ## Bounding boxes (`CSGCell::bounding_box_simple` / `bounding_box_complex`)

Modelled from the spec, section 4.3: the bodies are declared in `cell.h`
(lines 245, 250-251) but are not part of the sources.  An axis-aligned box
"may be unbounded on any axis", so bounds are extended reals. -/

/-- A box bound: a coordinate value, or plus/minus infinity (an axis may
be unbounded). -/
abbrev EBound (α : Type) : Type := WithBot (WithTop α)

/-- An axis-aligned bounding box, possibly unbounded on any axis.  The
coordinate type is abstract; the claims instantiate it at `ℝ`. -/
structure BoundingBox (α : Type) where
  xmin : EBound α
  xmax : EBound α
  ymin : EBound α
  ymax : EBound α
  zmin : EBound α
  zmax : EBound α

/-- A query point in 3D Cartesian coordinates. -/
abbrev Point (α : Type) : Type := α × α × α

/-- A finite coordinate as a box bound. -/
def coordUp {α : Type} (x : α) : EBound α := ((x : WithTop α) : EBound α)

/-- Membership of a point in a box. -/
def inBox {α : Type} [LinearOrder α] (p : Point α) (b : BoundingBox α) :
    Prop :=
  b.xmin ≤ coordUp p.1 ∧ coordUp p.1 ≤ b.xmax ∧
  b.ymin ≤ coordUp p.2.1 ∧ coordUp p.2.1 ≤ b.ymax ∧
  b.zmin ≤ coordUp p.2.2 ∧ coordUp p.2.2 ≤ b.zmax

/-- Box intersection: the largest box inside both. -/
def boxInter {α : Type} [LinearOrder α] (a b : BoundingBox α) :
    BoundingBox α :=
  ⟨max a.xmin b.xmin, min a.xmax b.xmax, max a.ymin b.ymin,
    min a.ymax b.ymax, max a.zmin b.zmin, min a.zmax b.zmax⟩

/-- Box union: the smallest box containing both. -/
def boxUnion {α : Type} [LinearOrder α] (a b : BoundingBox α) :
    BoundingBox α :=
  ⟨min a.xmin b.xmin, max a.xmax b.xmax, min a.ymin b.ymin,
    max a.ymax b.ymax, min a.zmin b.zmin, max a.zmax b.zmax⟩

/-- The unbounded box containing every point. -/
def universeBox {α : Type} : BoundingBox α := ⟨⊥, ⊤, ⊥, ⊤, ⊥, ⊤⟩

/-- Modelled from the spec: one step of `CSGCell::bounding_box_complex`'s
box-valued stack evaluation — "evaluate it on a box-valued stack exactly
as in section 4.1's complex evaluation, substituting box-intersection for
AND and box-union for OR, and each surface token's own half-space bounding
box for its boolean sense test".  The external Surface bounding-box
primitive is abstracted as `sbox : Int → BoundingBox`.  The input RPN is
complement-free, so a complement token is a failure. -/
def boxTok {α : Type} [LinearOrder α] (sbox : Int → BoundingBox α)
    (st : Option (List (BoundingBox α))) (t : Int) :
    Option (List (BoundingBox α)) :=
  match st with
  | none => none
  | some s =>
    if t = OP_UNION then
      match s with
      | a :: b :: r => some (boxUnion b a :: r)
      | _ => none
    else if t = OP_INTERSECTION then
      match s with
      | a :: b :: r => some (boxInter b a :: r)
      | _ => none
    else if t = OP_COMPLEMENT then none
    else if t = OP_LEFT_PAREN ∨ t = OP_RIGHT_PAREN then some s
    else some (sbox t :: s)

/-- Modelled from the spec: `CSGCell::bounding_box_complex` evaluates a
complement-free RPN on a box-valued stack. -/
def bounding_box_complex {α : Type} [LinearOrder α] (rpn : List Int)
    (sbox : Int → BoundingBox α) : Option (BoundingBox α) :=
  match rpn.foldl (boxTok sbox) (some []) with
  | some (b :: _) => some b
  | _ => none

/-- Modelled from the spec: `CSGCell::bounding_box_simple` — "the box is
the intersection of the bounding boxes of every half-space in the
expression". -/
def bounding_box_simple {α : Type} [LinearOrder α] (rpn : List Int)
    (sbox : Int → BoundingBox α) : BoundingBox α :=
  rpn.foldl (fun b t => if t < OP_UNION then boxInter b (sbox t) else b)
    universeBox

/-- Modelled from the spec: `CSGCell::bounding_box` dispatches on the
`simple_` flag; the general path "first run[s] the Boolean Simplifier to
obtain a complement-free RPN". -/
def bounding_box {α : Type} [LinearOrder α] (rpn : List Int)
    (simple : Bool) (sbox : Int → BoundingBox α) : Option (BoundingBox α) :=
  if simple then some (bounding_box_simple rpn sbox)
  else bounding_box_complex (remove_complement_ops rpn) sbox

/-- The box an RPN sub-expression evaluates to on the box stack. -/
def boxOf {α : Type} [LinearOrder α] (sbox : Int → BoundingBox α) :
    RExpr → BoundingBox α
  | .surf s => sbox s
  | .inter a b => boxInter (boxOf sbox a) (boxOf sbox b)
  | .union a b => boxUnion (boxOf sbox a) (boxOf sbox b)
  | .compl a => boxOf sbox a

/-! ## Cell instance resolver (`Cell::find_parent_cells`,
`Cell::exhaustive_find_parent_cells`, `Cell::get_contained_cells`)

Modelled from the spec, section 4.4: the bodies are declared in `cell.h`
(lines 148-175) but are not part of the sources.  The expanded (unrolled)
geometry is a finite tree: each tree node is one physical occurrence of a
cell definition, labelled with the cell's index; a material-filled cell is
a leaf, a universe- or lattice-filled cell carries the ordered forest of
the cells inside its fill.  A cell's instances are its occurrences in this
tree, numbered in depth-first (top-down, left-to-right) order; an ancestry
chain (the `vector<ParentCell>` of the source) is identified by the list
of child positions taken from the root, each position being the index of
the cell entered within its enclosing fill (the lattice-element index of a
`ParentCell`). -/

mutual
/-- One physical cell occurrence in the expanded geometry tree. -/
inductive GTree : Type where
  | mat (i : Nat) : GTree
  | node (i : Nat) (ch : GForest) : GTree
/-- The ordered cells inside a fill. -/
inductive GForest : Type where
  | fnil : GForest
  | fcons (t : GTree) (f : GForest) : GForest
end

/-- The cell index at the root of an occurrence. -/
def idOf : GTree → Nat
  | .mat i => i
  | .node i _ => i

/-- The `k`-th cell of a fill. -/
def fget : GForest → Nat → Option GTree
  | .fnil, _ => none
  | .fcons t _, 0 => some t
  | .fcons _ f, k + 1 => fget f k

/-- The occurrence reached by following a chain of child positions. -/
def subAt : GTree → List Nat → Option GTree
  | t, [] => some t
  | .mat _, _ :: _ => none
  | .node _ f, k :: p =>
    match fget f k with
    | some t => subAt t p
    | none => none

mutual
/-- All ancestry chains of instances of cell `c` in the tree, in
depth-first order: instance `k` of `c` is the occurrence reached by chain
`(cellPathsT c t).get k`. -/
def cellPathsT (c : Nat) : GTree → List (List Nat)
  | .mat i => if i = c then [[]] else []
  | .node i f => (if i = c then [[]] else []) ++ cellPathsF c 0 f
/-- Chains of instances of `c` inside a fill whose first cell sits at
child position `idx`. -/
def cellPathsF (c : Nat) : Nat → GForest → List (List Nat)
  | _, .fnil => []
  | idx, .fcons t f =>
    (cellPathsT c t).map (fun p => idx :: p) ++ cellPathsF c (idx + 1) f
end

/-- Number of instances of cell `c` in the tree (`Cell::n_instances_`). -/
def n_instances (t : GTree) (c : Nat) : Nat := (cellPathsT c t).length

mutual
/-- All `(cell index, chain)` pairs of material-filled (leaf) occurrences
in the tree, in depth-first order. -/
def leafPathsT : GTree → List (Nat × List Nat)
  | .mat i => [(i, [])]
  | .node _ f => leafPathsF 0 f
/-- Leaf occurrences inside a fill whose first cell sits at child
position `idx`. -/
def leafPathsF : Nat → GForest → List (Nat × List Nat)
  | _, .fnil => []
  | idx, .fcons t f =>
    (leafPathsT t).map (fun dq => (dq.1, idx :: dq.2)) ++ leafPathsF (idx + 1) f
end

mutual
/-- Modelled from the spec: the descent of
`Cell::exhaustive_find_parent_cells` — "perform a full search of the
geometry tree (descend every universe/lattice fill, tracking cumulative
instance counts) until the cumulative instance counter reaches the
requested instance number".  Returns the chain when the counter reaches
zero on an occurrence of `c`, else the decremented counter. -/
def exFindT (c : Nat) : GTree → Nat → Option (List Nat) × Nat
  | .mat i, k =>
    if i = c then (if k = 0 then (some [], 0) else (none, k - 1))
    else (none, k)
  | .node i f, k =>
    if i = c then
      (if k = 0 then (some [], 0) else exFindF c 0 f (k - 1))
    else exFindF c 0 f k
/-- The counter-tracking search through a fill. -/
def exFindF (c : Nat) : Nat → GForest → Nat → Option (List Nat) × Nat
  | _, .fnil, k => (none, k)
  | idx, .fcons t f, k =>
    match exFindT c t k with
    | (some p, k2) => (some (idx :: p), k2)
    | (none, k2) => exFindF c (idx + 1) f k2
end

/-- Modelled from the spec: `Cell::exhaustive_find_parent_cells` — the
fallback full search for the ancestry chain of instance `k` of cell `c`;
`none` reports the NotFound condition of spec section 7. -/
def exhaustive_find_parent_cells (t : GTree) (c : Nat) (k : Nat) :
    Option (List Nat) :=
  (exFindT c t k).1

/-- Modelled from the spec: the point-guided `Cell::find_parent_cells` —
"uses the locator to perform a single top-down walk" from the root to the
requested instance, producing that instance's ancestry chain (the chain of
the `k`-th occurrence of `c` in top-down depth-first order); `none`
reports the NotFound condition. -/
def find_parent_cells (t : GTree) (c : Nat) (k : Nat) :
    Option (List Nat) :=
  (cellPathsT c t)[k]?

/-- Position of a chain in a list of chains (first occurrence). -/
def idxOfPath (r : List Nat) : List (List Nat) → Nat
  | [] => 0
  | p :: ps => if p = r then 0 else idxOfPath r ps + 1

/-- The instance number of the occurrence of cell `d` at chain `r`: its
position in the depth-first enumeration of all instances of `d`. -/
def instOf (t : GTree) (d : Nat) (r : List Nat) : Nat :=
  idxOfPath r (cellPathsT d t)

/-- The leaf occurrences strictly inside an occurrence: a material cell
contains nothing, a filled cell contains the leaves of its fill. -/
def containedLeafPaths : GTree → List (Nat × List Nat)
  | .mat _ => []
  | .node _ f => leafPathsF 0 f

/-- Modelled from the spec: `Cell::get_contained_cells` — "recursively
descend into this Cell's fill (if it is a nested universe or lattice) and
collect every leaf Cell's instance numbers reachable underneath this
Cell's given instance".  The result pairs each contained material cell's
index with the instance number of that occurrence; `none` reports the
NotFound condition for an invalid instance. -/
def get_contained_cells (t : GTree) (c : Nat) (k : Nat) :
    Option (List (Nat × Nat)) :=
  match (cellPathsT c t)[k]? with
  | none => none
  | some p =>
    match subAt t p with
    | none => none
    | some s =>
      some ((containedLeafPaths s).map (fun dq => (dq.1, instOf t dq.1 (p ++ dq.2))))

/-! ## Rotation bookkeeping (`Cell::set_rotation`)

Modelled from the spec, section 4.5: the body is declared in `cell.h`
(lines 130-132) but is not part of the sources. -/

/-- Error conditions reported by the accessors (spec section 7). -/
inductive CellErr : Type where
  | InvalidArgument : CellErr
deriving DecidableEq

/-- Outcome of `set_rotation`: the rotation vector after the call and the
reported error condition, if any. -/
structure RotResult where
  rotation_ : List ℝ
  err : Option CellErr

/-- Modelled from the spec: the 3×3 row-major rotation matrix derived
from rotation angles about the x-, y- and z-axes in degrees.  The
degree-argument cosine and sine primitives are abstracted as `cosd` and
`sind`; the matrix is the composition of the three axis rotations. -/
def rotMatrix (cosd sind : ℝ → ℝ) (rx ry rz : ℝ) : List ℝ :=
  [cosd ry * cosd rz,
    sind rx * sind ry * cosd rz - cosd rx * sind rz,
    cosd rx * sind ry * cosd rz + sind rx * sind rz,
    cosd ry * sind rz,
    sind rx * sind ry * sind rz + cosd rx * cosd rz,
    cosd rx * sind ry * sind rz - sind rx * cosd rz,
    -sind ry,
    sind rx * cosd ry,
    cosd rx * cosd ry]

/-- Modelled from the spec: `Cell::set_rotation` — "accepts either 3
(Euler angles, degrees) or 9 (row-major matrix) values; when given
angles, the stored representation is the derived 3×3 row-major matrix
followed by the original 3 angles (vector length 12); fails with an
InvalidArgument condition for any other length", leaving the prior
rotation state untouched. -/
def set_rotation (cosd sind : ℝ → ℝ) (prior rot : List ℝ) : RotResult :=
  if rot.length = 3 then
    ⟨rotMatrix cosd sind (rot.getD 0 0) (rot.getD 1 0) (rot.getD 2 0) ++ rot,
      none⟩
  else if rot.length = 9 then ⟨rot, none⟩
  else ⟨prior, some CellErr.InvalidArgument⟩

/-! ## CellInstance (`cell.h`, lines 277-295; inline bodies in source) -/

/-- `CellInstance` (`cell.h` line 277): the identity tuple of one physical
occurrence of a cell.  `gsl::index` is a signed index type. -/
structure CellInstance where
  index_cell : Int
  inst : Int
deriving DecidableEq

/-- `CellInstance::operator==` (`cell.h` lines 279-282):
`index_cell == other.index_cell && instance == other.instance`. -/
def cellInstanceEq (a b : CellInstance) : Bool :=
  a.index_cell == b.index_cell && a.inst == b.inst

/-- `CellInstanceHash::operator()` (`cell.h` lines 291-294):
`4096 * k.index_cell + k.instance`, converted to `std::size_t`
(unsigned 64-bit). -/
def cellInstanceHash (k : CellInstance) : Nat :=
  ((4096 * k.index_cell + k.inst) % (2 ^ 64 : Int)).toNat

/-! ## Sample data used by the witness theorems -/

/-- A coherent sense assignment: inside iff the token is positive. -/
def spPos : Int → Bool := fun t => decide (0 < t)

/-- The region `COMPLEMENT(+1 OR -2)` of the spec's concrete scenario. -/
def egCompl : RExpr := .compl (.union (.surf 1) (.surf (-2)))

/-- The simple region `+1 AND -2`. -/
def egSimple : RExpr := .inter (.surf 1) (.surf (-2))

/-- A small geometry: a root universe cell 0 holding a material cell 1 and
a filled cell 2 that holds another material cell 1. -/
def egTree : GTree :=
  .node 0 (.fcons (.mat 1) (.fcons (.node 2 (.fcons (.mat 1) .fnil)) .fnil))

/-! ## Theorems.  First, facts about the boolean stack evaluator. -/

theorem validSurf_iff {s : Int} :
    validSurf s = true ↔ s ≠ 0 ∧ -OP_UNION < s ∧ s < OP_UNION := by
  simp [validSurf, and_assoc]

theorem evalTok_surf (sp : Int → Bool) (st : List Bool) {s : Int}
    (h : validSurf s = true) : evalTok sp (some st) s = some (sp s :: st) := by
  rcases validSurf_iff.mp h with ⟨h0, hl, hr⟩
  simp only [OP_UNION] at hl hr
  have h1 : s ≠ OP_UNION := by simp only [OP_UNION]; omega
  have h2 : s ≠ OP_INTERSECTION := by simp only [OP_INTERSECTION]; omega
  have h3 : s ≠ OP_COMPLEMENT := by simp only [OP_COMPLEMENT]; omega
  have h4 : ¬(s = OP_LEFT_PAREN ∨ s = OP_RIGHT_PAREN) := by
    simp only [OP_LEFT_PAREN, OP_RIGHT_PAREN]
    omega
  simp only [evalTok, if_neg h1, if_neg h2, if_neg h3, if_neg h4]

theorem evalTok_inter (sp : Int → Bool) (a b : Bool) (r : List Bool) :
    evalTok sp (some (a :: b :: r)) OP_INTERSECTION = some ((b && a) :: r) := by
  have h1 : OP_INTERSECTION ≠ OP_UNION := by decide
  simp only [evalTok, if_neg h1, if_pos rfl]
  rfl

theorem evalTok_union (sp : Int → Bool) (a b : Bool) (r : List Bool) :
    evalTok sp (some (a :: b :: r)) OP_UNION = some ((b || a) :: r) := by
  simp only [evalTok, if_pos rfl]
  rfl

theorem evalTok_compl (sp : Int → Bool) (a : Bool) (r : List Bool) :
    evalTok sp (some (a :: r)) OP_COMPLEMENT = some ((!a) :: r) := by
  have h1 : OP_COMPLEMENT ≠ OP_UNION := by decide
  have h2 : OP_COMPLEMENT ≠ OP_INTERSECTION := by decide
  simp only [evalTok, if_neg h1, if_neg h2, if_pos rfl]
  rfl

theorem foldl_evalTok (sp : Int → Bool) :
    ∀ e : RExpr, wf e = true → ∀ st : List Bool,
      (toRPN e).foldl (evalTok sp) (some st) = some (evalE sp e :: st) := by
  intro e
  induction e with
  | surf s =>
    intro h st
    simp only [toRPN, List.foldl_cons, List.foldl_nil]
    rw [evalTok_surf sp st h]
    rfl
  | inter a b iha ihb =>
    intro h st
    simp only [wf, Bool.and_eq_true] at h
    simp only [toRPN, List.foldl_append, List.foldl_cons, List.foldl_nil]
    rw [iha h.1, ihb h.2, evalTok_inter]
    rfl
  | union a b iha ihb =>
    intro h st
    simp only [wf, Bool.and_eq_true] at h
    simp only [toRPN, List.foldl_append, List.foldl_cons, List.foldl_nil]
    rw [iha h.1, ihb h.2, evalTok_union]
    rfl
  | compl a iha =>
    intro h st
    simp only [wf] at h
    simp only [toRPN, List.foldl_append, List.foldl_cons, List.foldl_nil]
    rw [iha h, evalTok_compl]
    rfl

theorem contains_complex_toRPN (sp : Int → Bool) {e : RExpr}
    (h : wf e = true) : contains_complex (toRPN e) sp = some (evalE sp e) := by
  rw [contains_complex, foldl_evalTok sp e h]

/-! ## Facts about `dual`, `elimCompl` and `replaceFirst` -/

theorem wf_dual : ∀ e : RExpr, wf e = true → wf (dual e) = true := by
  intro e
  induction e with
  | surf s =>
    intro h
    rcases validSurf_iff.mp h with ⟨h0, hl, hr⟩
    simp only [dual, wf]
    apply validSurf_iff.mpr
    exact ⟨by omega, by omega, by omega⟩
  | inter a b iha ihb =>
    intro h
    simp only [wf, Bool.and_eq_true] at h
    simp only [dual, wf, Bool.and_eq_true]
    exact ⟨iha h.1, ihb h.2⟩
  | union a b iha ihb =>
    intro h
    simp only [wf, Bool.and_eq_true] at h
    simp only [dual, wf, Bool.and_eq_true]
    exact ⟨iha h.1, ihb h.2⟩
  | compl a iha =>
    intro h
    simp only [wf] at h
    simp only [dual, wf]
    exact iha h

theorem noCompl_dual : ∀ e : RExpr, noCompl e = true → noCompl (dual e) = true := by
  intro e
  induction e with
  | surf s => intro h; simp [dual, noCompl]
  | inter a b iha ihb =>
    intro h
    simp only [noCompl, Bool.and_eq_true] at h
    simp only [dual, noCompl, Bool.and_eq_true]
    exact ⟨iha h.1, ihb h.2⟩
  | union a b iha ihb =>
    intro h
    simp only [noCompl, Bool.and_eq_true] at h
    simp only [dual, noCompl, Bool.and_eq_true]
    exact ⟨iha h.1, ihb h.2⟩
  | compl a iha => intro h; simp [noCompl] at h

theorem evalE_dual (sp : Int → Bool) (hsp : SenseOK sp) :
    ∀ e : RExpr, wf e = true → evalE sp (dual e) = !evalE sp e := by
  intro e
  induction e with
  | surf s =>
    intro h
    rcases validSurf_iff.mp h with ⟨h0, hl, hr⟩
    simp only [dual, evalE]
    exact hsp s h0
  | inter a b iha ihb =>
    intro h
    simp only [wf, Bool.and_eq_true] at h
    simp only [dual, evalE, iha h.1, ihb h.2, Bool.not_and]
  | union a b iha ihb =>
    intro h
    simp only [wf, Bool.and_eq_true] at h
    simp only [dual, evalE, iha h.1, ihb h.2, Bool.not_or]
  | compl a iha =>
    intro h
    simp only [wf] at h
    simp only [dual, evalE, iha h]

theorem wf_elimCompl : ∀ e : RExpr, wf e = true → wf (elimCompl e) = true := by
  intro e
  induction e with
  | surf s => intro h; simpa [elimCompl] using h
  | inter a b iha ihb =>
    intro h
    simp only [wf, Bool.and_eq_true] at h
    simp only [elimCompl, wf, Bool.and_eq_true]
    exact ⟨iha h.1, ihb h.2⟩
  | union a b iha ihb =>
    intro h
    simp only [wf, Bool.and_eq_true] at h
    simp only [elimCompl, wf, Bool.and_eq_true]
    exact ⟨iha h.1, ihb h.2⟩
  | compl a iha =>
    intro h
    simp only [wf] at h
    simp only [elimCompl]
    exact wf_dual _ (iha h)

theorem noCompl_elimCompl : ∀ e : RExpr, noCompl (elimCompl e) = true := by
  intro e
  induction e with
  | surf s => simp [elimCompl, noCompl]
  | inter a b iha ihb =>
    simp only [elimCompl, noCompl, Bool.and_eq_true]
    exact ⟨iha, ihb⟩
  | union a b iha ihb =>
    simp only [elimCompl, noCompl, Bool.and_eq_true]
    exact ⟨iha, ihb⟩
  | compl a iha =>
    simp only [elimCompl]
    exact noCompl_dual _ iha

theorem evalE_elimCompl (sp : Int → Bool) (hsp : SenseOK sp) :
    ∀ e : RExpr, wf e = true → evalE sp (elimCompl e) = evalE sp e := by
  intro e
  induction e with
  | surf s => intro h; simp [elimCompl]
  | inter a b iha ihb =>
    intro h
    simp only [wf, Bool.and_eq_true] at h
    simp only [elimCompl, evalE, iha h.1, ihb h.2]
  | union a b iha ihb =>
    intro h
    simp only [wf, Bool.and_eq_true] at h
    simp only [elimCompl, evalE, iha h.1, ihb h.2]
  | compl a iha =>
    intro h
    simp only [wf] at h
    simp only [elimCompl, evalE]
    rw [evalE_dual sp hsp _ (wf_elimCompl _ h), iha h]

theorem elimCompl_of_noCompl :
    ∀ e : RExpr, noCompl e = true → elimCompl e = e := by
  intro e
  induction e with
  | surf s => intro h; rfl
  | inter a b iha ihb =>
    intro h
    simp only [noCompl, Bool.and_eq_true] at h
    simp only [elimCompl, iha h.1, ihb h.2]
  | union a b iha ihb =>
    intro h
    simp only [noCompl, Bool.and_eq_true] at h
    simp only [elimCompl, iha h.1, ihb h.2]
  | compl a iha => intro h; simp [noCompl] at h

theorem elimCompl_replaceFirst :
    ∀ e : RExpr, elimCompl (replaceFirst e) = elimCompl e := by
  intro e
  induction e with
  | surf s => rfl
  | inter a b iha ihb =>
    by_cases hn : noCompl a = true
    · simp only [replaceFirst, if_pos hn, elimCompl, ihb]
    · simp only [replaceFirst, if_neg hn, elimCompl, iha]
  | union a b iha ihb =>
    by_cases hn : noCompl a = true
    · simp only [replaceFirst, if_pos hn, elimCompl, ihb]
    · simp only [replaceFirst, if_neg hn, elimCompl, iha]
  | compl a iha =>
    by_cases hn : noCompl a = true
    · simp only [replaceFirst, if_pos hn, elimCompl]
      rw [elimCompl_of_noCompl _ hn,
        elimCompl_of_noCompl _ (noCompl_dual _ hn)]
    · simp only [replaceFirst, if_neg hn, elimCompl, iha]

theorem wf_replaceFirst :
    ∀ e : RExpr, wf e = true → wf (replaceFirst e) = true := by
  intro e
  induction e with
  | surf s => intro h; exact h
  | inter a b iha ihb =>
    intro h
    simp only [wf, Bool.and_eq_true] at h
    by_cases hn : noCompl a = true
    · simp only [replaceFirst, if_pos hn, wf, Bool.and_eq_true]
      exact ⟨h.1, ihb h.2⟩
    · simp only [replaceFirst, if_neg hn, wf, Bool.and_eq_true]
      exact ⟨iha h.1, h.2⟩
  | union a b iha ihb =>
    intro h
    simp only [wf, Bool.and_eq_true] at h
    by_cases hn : noCompl a = true
    · simp only [replaceFirst, if_pos hn, wf, Bool.and_eq_true]
      exact ⟨h.1, ihb h.2⟩
    · simp only [replaceFirst, if_neg hn, wf, Bool.and_eq_true]
      exact ⟨iha h.1, h.2⟩
  | compl a iha =>
    intro h
    simp only [wf] at h
    by_cases hn : noCompl a = true
    · simp only [replaceFirst, if_pos hn]
      exact wf_dual _ h
    · simp only [replaceFirst, if_neg hn, wf]
      exact iha h

theorem complCountE_of_noCompl :
    ∀ e : RExpr, noCompl e = true → complCountE e = 0 := by
  intro e
  induction e with
  | surf s => intro h; rfl
  | inter a b iha ihb =>
    intro h
    simp only [noCompl, Bool.and_eq_true] at h
    simp only [complCountE, iha h.1, ihb h.2]
  | union a b iha ihb =>
    intro h
    simp only [noCompl, Bool.and_eq_true] at h
    simp only [complCountE, iha h.1, ihb h.2]
  | compl a iha => intro h; simp [noCompl] at h

theorem complCountE_dual : ∀ e : RExpr, complCountE (dual e) = complCountE e := by
  intro e
  induction e with
  | surf s => rfl
  | inter a b iha ihb => simp only [dual, complCountE, iha, ihb]
  | union a b iha ihb => simp only [dual, complCountE, iha, ihb]
  | compl a iha => simp only [dual, complCountE, iha]

theorem complCountE_replaceFirst :
    ∀ e : RExpr, noCompl e = false → complCountE (replaceFirst e) + 1 = complCountE e := by
  intro e
  induction e with
  | surf s => intro h; simp [noCompl] at h
  | inter a b iha ihb =>
    intro h
    simp only [noCompl, Bool.and_eq_false_iff] at h
    by_cases hn : noCompl a = true
    · have hb : noCompl b = false := by
        rcases h with h | h
        · rw [hn] at h; cases h
        · exact h
      simp only [replaceFirst, if_pos hn, complCountE]
      have := ihb hb
      omega
    · simp only [replaceFirst, if_neg hn, complCountE]
      have ha : noCompl a = false := by
        cases hx : noCompl a
        · rfl
        · exact absurd hx hn
      have := iha ha
      omega
  | union a b iha ihb =>
    intro h
    simp only [noCompl, Bool.and_eq_false_iff] at h
    by_cases hn : noCompl a = true
    · have hb : noCompl b = false := by
        rcases h with h | h
        · rw [hn] at h; cases h
        · exact h
      simp only [replaceFirst, if_pos hn, complCountE]
      have := ihb hb
      omega
    · simp only [replaceFirst, if_neg hn, complCountE]
      have ha : noCompl a = false := by
        cases hx : noCompl a
        · rfl
        · exact absurd hx hn
      have := iha ha
      omega
  | compl a iha =>
    intro h
    by_cases hn : noCompl a = true
    · simp only [replaceFirst, if_pos hn, complCountE]
      rw [complCountE_dual, complCountE_of_noCompl _ hn]
    · simp only [replaceFirst, if_neg hn, complCountE]
      have ha : noCompl a = false := by
        cases hx : noCompl a
        · rfl
        · exact absurd hx hn
      have := iha ha
      omega

/-! ## Token-level facts about the RPN of an expression -/

theorem noCompl_toRPN :
    ∀ e : RExpr, wf e = true → noCompl e = true →
      OP_COMPLEMENT ∉ toRPN e := by
  intro e
  induction e with
  | surf s =>
    intro hw hn
    rcases validSurf_iff.mp hw with ⟨h0, hl, hr⟩
    simp only [toRPN, List.mem_singleton]
    intro hc
    rw [← hc] at hr
    revert hr
    simp only [OP_COMPLEMENT, OP_UNION]
    omega
  | inter a b iha ihb =>
    intro hw hn
    simp only [wf, Bool.and_eq_true] at hw
    simp only [noCompl, Bool.and_eq_true] at hn
    simp only [toRPN, List.mem_append, List.mem_singleton]
    push_neg
    refine ⟨⟨iha hw.1 hn.1, ihb hw.2 hn.2⟩, ?_⟩
    simp only [OP_COMPLEMENT, OP_INTERSECTION]
    omega
  | union a b iha ihb =>
    intro hw hn
    simp only [wf, Bool.and_eq_true] at hw
    simp only [noCompl, Bool.and_eq_true] at hn
    simp only [toRPN, List.mem_append, List.mem_singleton]
    push_neg
    refine ⟨⟨iha hw.1 hn.1, ihb hw.2 hn.2⟩, ?_⟩
    simp only [OP_COMPLEMENT, OP_UNION]
    omega
  | compl a iha =>
    intro hw hn
    simp only [noCompl] at hn
    cases hn

theorem firstCompl_eq_none :
    ∀ l : List Int, OP_COMPLEMENT ∉ l → firstCompl l = none := by
  intro l
  induction l with
  | nil => intro h; rfl
  | cons t ts ih =>
    intro h
    simp only [List.mem_cons] at h
    push_neg at h
    have hne : t ≠ OP_COMPLEMENT := fun hc => h.1 hc.symm
    simp [firstCompl, hne, ih h.2]

theorem firstCompl_append (l1 l2 : List Int) (h : OP_COMPLEMENT ∉ l1) :
    firstCompl (l1 ++ OP_COMPLEMENT :: l2) = some l1.length := by
  induction l1 with
  | nil => simp [firstCompl]
  | cons t ts ih =>
    simp only [List.mem_cons] at h
    push_neg at h
    have hne : t ≠ OP_COMPLEMENT := fun hc => h.1 hc.symm
    simp [firstCompl, hne, ih h.2]

theorem demorganTok_surf {s : Int} (h : validSurf s = true) :
    demorganTok s = -s := by
  rcases validSurf_iff.mp h with ⟨h0, hl, hr⟩
  simp only [OP_UNION] at hl hr
  have h1 : s ≠ OP_UNION := by simp only [OP_UNION]; omega
  have h2 : s ≠ OP_INTERSECTION := by simp only [OP_INTERSECTION]; omega
  have h3 : s < OP_UNION := by simp only [OP_UNION]; omega
  simp only [demorganTok, if_neg h1, if_neg h2, if_pos h3]

theorem demorganTok_inter : demorganTok OP_INTERSECTION = OP_UNION := by
  decide

theorem demorganTok_union : demorganTok OP_UNION = OP_INTERSECTION := by
  decide

theorem apply_demorgan_toRPN :
    ∀ e : RExpr, wf e = true → noCompl e = true →
      apply_demorgan (toRPN e) = toRPN (dual e) := by
  intro e
  induction e with
  | surf s =>
    intro hw hn
    simp only [toRPN, apply_demorgan, List.map_cons, List.map_nil, dual,
      demorganTok_surf hw]
  | inter a b iha ihb =>
    intro hw hn
    simp only [wf, Bool.and_eq_true] at hw
    simp only [noCompl, Bool.and_eq_true] at hn
    simp only [toRPN, apply_demorgan, dual, List.map_append, List.map_cons,
      List.map_nil, demorganTok_inter]
    rw [← apply_demorgan, ← apply_demorgan, iha hw.1 hn.1, ihb hw.2 hn.2]
  | union a b iha ihb =>
    intro hw hn
    simp only [wf, Bool.and_eq_true] at hw
    simp only [noCompl, Bool.and_eq_true] at hn
    simp only [toRPN, apply_demorgan, dual, List.map_append, List.map_cons,
      List.map_nil, demorganTok_union]
    rw [← apply_demorgan, ← apply_demorgan, iha hw.1 hn.1, ihb hw.2 hn.2]
  | compl a iha =>
    intro hw hn
    simp only [noCompl] at hn
    cases hn

theorem getD_middle (l1 l2 : List Int) (x : Int) :
    (l1 ++ x :: l2).getD l1.length 0 = x := by
  induction l1 with
  | nil => rfl
  | cons t ts ih => simpa using ih

/-- The first complement of the RPN of a non-complement-free expression,
with the De Morgan span around it: the decomposition that one iteration of
`remove_complement_ops` acts on. -/
theorem decompFirst :
    ∀ e : RExpr, wf e = true → noCompl e = false →
      ∃ pre c post, toRPN e = pre ++ toRPN c ++ OP_COMPLEMENT :: post ∧
        OP_COMPLEMENT ∉ pre ∧ noCompl c = true ∧ wf c = true ∧
        toRPN (replaceFirst e) = pre ++ toRPN (dual c) ++ post := by
  intro e
  induction e with
  | surf s => intro hw hn; simp [noCompl] at hn
  | inter a b iha ihb =>
    intro hw hn
    simp only [wf, Bool.and_eq_true] at hw
    by_cases ha : noCompl a = true
    · have hb : noCompl b = false := by
        cases hx : noCompl b
        · rfl
        · exfalso
          rw [noCompl, ha, hx] at hn
          cases hn
      rcases ihb hw.2 hb with ⟨pre, c, post, hsplit, hpre, hnc, hwc, hrep⟩
      refine ⟨toRPN a ++ pre, c, post ++ [OP_INTERSECTION], ?_, ?_, hnc, hwc, ?_⟩
      · rw [toRPN, hsplit]
        simp [List.append_assoc]
      · simp only [List.mem_append]
        push_neg
        exact ⟨noCompl_toRPN a hw.1 ha, hpre⟩
      · rw [replaceFirst, if_pos ha, toRPN, hrep]
        simp [List.append_assoc]
    · have ha2 : noCompl a = false := by
        cases hx : noCompl a
        · rfl
        · exact absurd hx ha
      rcases iha hw.1 ha2 with ⟨pre, c, post, hsplit, hpre, hnc, hwc, hrep⟩
      refine ⟨pre, c, post ++ toRPN b ++ [OP_INTERSECTION], ?_, hpre, hnc, hwc, ?_⟩
      · rw [toRPN, hsplit]
        simp [List.append_assoc]
      · rw [replaceFirst, if_neg ha, toRPN, hrep]
        simp [List.append_assoc]
  | union a b iha ihb =>
    intro hw hn
    simp only [wf, Bool.and_eq_true] at hw
    by_cases ha : noCompl a = true
    · have hb : noCompl b = false := by
        cases hx : noCompl b
        · rfl
        · exfalso
          rw [noCompl, ha, hx] at hn
          cases hn
      rcases ihb hw.2 hb with ⟨pre, c, post, hsplit, hpre, hnc, hwc, hrep⟩
      refine ⟨toRPN a ++ pre, c, post ++ [OP_UNION], ?_, ?_, hnc, hwc, ?_⟩
      · rw [toRPN, hsplit]
        simp [List.append_assoc]
      · simp only [List.mem_append]
        push_neg
        exact ⟨noCompl_toRPN a hw.1 ha, hpre⟩
      · rw [replaceFirst, if_pos ha, toRPN, hrep]
        simp [List.append_assoc]
    · have ha2 : noCompl a = false := by
        cases hx : noCompl a
        · rfl
        · exact absurd hx ha
      rcases iha hw.1 ha2 with ⟨pre, c, post, hsplit, hpre, hnc, hwc, hrep⟩
      refine ⟨pre, c, post ++ toRPN b ++ [OP_UNION], ?_, hpre, hnc, hwc, ?_⟩
      · rw [toRPN, hsplit]
        simp [List.append_assoc]
      · rw [replaceFirst, if_neg ha, toRPN, hrep]
        simp [List.append_assoc]
  | compl a iha =>
    intro hw hn
    simp only [wf] at hw
    by_cases ha : noCompl a = true
    · refine ⟨[], a, [], ?_, by simp, ha, hw, ?_⟩
      · simp [toRPN]
      · simp [replaceFirst, if_pos ha]
    · have ha2 : noCompl a = false := by
        cases hx : noCompl a
        · rfl
        · exact absurd hx ha
      rcases iha hw ha2 with ⟨pre, c, post, hsplit, hpre, hnc, hwc, hrep⟩
      refine ⟨pre, c, post ++ [OP_COMPLEMENT], ?_, hpre, hnc, hwc, ?_⟩
      · rw [toRPN, hsplit]
        simp [List.append_assoc]
      · rw [replaceFirst, if_neg ha, toRPN, hrep]
        simp [List.append_assoc]

/-! ## The backward span scan -/

/-- Scanning backward through the RPN of a complement-free sub-expression
consumes it entirely and supplies exactly one outstanding operand: the
scan either stops at its left end (when that operand was the last one
needed) or continues to its left with one operand fewer needed. -/
theorem flp_scan :
    ∀ c : RExpr, wf c = true → noCompl c = true →
      ∀ (L : List Int) (j : Nat) (pre rest : List Int) (need : Int),
        L = pre ++ toRPN c ++ rest → j = pre.length + (toRPN c).length →
        1 ≤ need →
        find_left_parenthesis L j need =
          if need = 1 then pre.length
          else find_left_parenthesis L pre.length (need - 1) := by
  intro c
  induction c with
  | surf s =>
    intro hw hn L j pre rest need hL hj hneed
    have hsplit : L = pre ++ s :: rest := by rw [hL]; simp [toRPN]
    have hj2 : j = pre.length + 1 := by rw [hj]; simp [toRPN]
    have hget : L.getD pre.length 0 = s := by
      rw [hsplit]; exact getD_middle pre rest s
    rcases validSurf_iff.mp hw with ⟨h0, hl, hr⟩
    simp only [OP_UNION] at hl hr
    have h1 : ¬(s = OP_INTERSECTION ∨ s = OP_UNION) := by
      simp only [OP_INTERSECTION, OP_UNION]
      omega
    have h2 : s ≠ OP_COMPLEMENT := by simp only [OP_COMPLEMENT]; omega
    rw [hj2, find_left_parenthesis]
    simp only [hget, if_neg h1, if_neg h2]
    by_cases hn1 : need = 1
    · rw [if_pos (show need - 1 = 0 by omega), if_pos hn1]
    · rw [if_neg (show ¬(need - 1 = 0) by omega), if_neg hn1]
  | inter a b iha ihb =>
    intro hw hn L j pre rest need hL hj hneed
    simp only [wf, Bool.and_eq_true] at hw
    simp only [noCompl, Bool.and_eq_true] at hn
    have hsplit : L = (pre ++ toRPN a ++ toRPN b) ++ OP_INTERSECTION :: rest := by
      rw [hL]; simp [toRPN, List.append_assoc]
    have hj2 : j = (pre ++ toRPN a ++ toRPN b).length + 1 := by
      rw [hj]; simp [toRPN, List.length_append]; omega
    have hget : L.getD (pre ++ toRPN a ++ toRPN b).length 0 = OP_INTERSECTION := by
      rw [hsplit]; exact getD_middle _ _ _
    rw [hj2, find_left_parenthesis]
    simp only [hget, true_or, if_true]
    rw [if_neg (show ¬(need + 1 = 0) by omega)]
    have ihb2 := ihb hw.2 hn.2 L ((pre ++ toRPN a ++ toRPN b).length)
      (pre ++ toRPN a) (OP_INTERSECTION :: rest) (need + 1)
      (by rw [hsplit])
      (by simp only [List.length_append]) (by omega)
    rw [ihb2, if_neg (show ¬(need + 1 = 1) by omega),
      show need + 1 - 1 = need by omega]
    exact iha hw.1 hn.1 L ((pre ++ toRPN a).length) pre
      (toRPN b ++ OP_INTERSECTION :: rest) need
      (by rw [hsplit]; simp [List.append_assoc])
      (by simp [List.length_append]) hneed
  | union a b iha ihb =>
    intro hw hn L j pre rest need hL hj hneed
    simp only [wf, Bool.and_eq_true] at hw
    simp only [noCompl, Bool.and_eq_true] at hn
    have hsplit : L = (pre ++ toRPN a ++ toRPN b) ++ OP_UNION :: rest := by
      rw [hL]; simp [toRPN, List.append_assoc]
    have hj2 : j = (pre ++ toRPN a ++ toRPN b).length + 1 := by
      rw [hj]; simp [toRPN, List.length_append]; omega
    have hget : L.getD (pre ++ toRPN a ++ toRPN b).length 0 = OP_UNION := by
      rw [hsplit]; exact getD_middle _ _ _
    rw [hj2, find_left_parenthesis]
    simp only [hget, or_true, if_true]
    rw [if_neg (show ¬(need + 1 = 0) by omega)]
    have ihb2 := ihb hw.2 hn.2 L ((pre ++ toRPN a ++ toRPN b).length)
      (pre ++ toRPN a) (OP_UNION :: rest) (need + 1)
      (by rw [hsplit])
      (by simp only [List.length_append]) (by omega)
    rw [ihb2, if_neg (show ¬(need + 1 = 1) by omega),
      show need + 1 - 1 = need by omega]
    exact iha hw.1 hn.1 L ((pre ++ toRPN a).length) pre
      (toRPN b ++ OP_UNION :: rest) need
      (by rw [hsplit]; simp [List.append_assoc])
      (by simp [List.length_append]) hneed
  | compl a iha =>
    intro hw hn
    simp only [noCompl] at hn
    cases hn

/-- The span search called on the first complement token finds the left
end of that complement's operand. -/
theorem flp_found (c : RExpr) (hw : wf c = true) (hn : noCompl c = true)
    (pre rest : List Int) :
    find_left_parenthesis (pre ++ toRPN c ++ rest)
        (pre.length + (toRPN c).length) 1 = pre.length := by
  have h := flp_scan c hw hn (pre ++ toRPN c ++ rest)
    (pre.length + (toRPN c).length) pre rest 1 rfl rfl (by omega)
  simpa using h

/-! ## The rewriting loop computes the AST-level normal form -/

theorem noCompl_of_complCountE :
    ∀ e : RExpr, complCountE e = 0 → noCompl e = true := by
  intro e
  induction e with
  | surf s => intro h; rfl
  | inter a b iha ihb =>
    intro h
    simp only [complCountE, Nat.add_eq_zero] at h
    simp only [noCompl, Bool.and_eq_true]
    exact ⟨iha h.1, ihb h.2⟩
  | union a b iha ihb =>
    intro h
    simp only [complCountE, Nat.add_eq_zero] at h
    simp only [noCompl, Bool.and_eq_true]
    exact ⟨iha h.1, ihb h.2⟩
  | compl a iha =>
    intro h
    simp only [complCountE] at h
    omega

theorem complCountE_le_length :
    ∀ e : RExpr, complCountE e ≤ (toRPN e).length := by
  intro e
  induction e with
  | surf s => simp [complCountE, toRPN]
  | inter a b iha ihb =>
    simp only [complCountE, toRPN, List.length_append]
    omega
  | union a b iha ihb =>
    simp only [complCountE, toRPN, List.length_append]
    omega
  | compl a iha =>
    simp only [complCountE, toRPN, List.length_append, List.length_cons,
      List.length_nil]
    omega

theorem loop_toRPN :
    ∀ n : Nat, ∀ e : RExpr, wf e = true → complCountE e ≤ n →
      remove_complement_loop n (toRPN e) = toRPN (elimCompl e) := by
  intro n
  induction n with
  | zero =>
    intro e hw hc
    have hn : noCompl e = true := noCompl_of_complCountE e (Nat.le_zero.mp hc)
    rw [remove_complement_loop, elimCompl_of_noCompl e hn]
  | succ n ih =>
    intro e hw hc
    by_cases hn : noCompl e = true
    · have hfc : firstCompl (toRPN e) = none :=
        firstCompl_eq_none _ (noCompl_toRPN e hw hn)
      rw [remove_complement_loop]
      simp only [hfc]
      rw [elimCompl_of_noCompl e hn]
    · have hn2 : noCompl e = false := by
        cases hx : noCompl e
        · rfl
        · exact absurd hx hn
      rcases decompFirst e hw hn2 with ⟨pre, c, post, hsplit, hpre, hnc, hwc, hrep⟩
      have hnotin : OP_COMPLEMENT ∉ pre ++ toRPN c := by
        simp only [List.mem_append]
        push_neg
        exact ⟨hpre, noCompl_toRPN c hwc hnc⟩
      have hfc : firstCompl (toRPN e) = some (pre ++ toRPN c).length := by
        rw [hsplit]
        exact firstCompl_append (pre ++ toRPN c) post hnotin
      have hs : find_left_parenthesis (toRPN e) ((pre ++ toRPN c).length) 1 =
          pre.length := by
        rw [hsplit,
          show (pre ++ toRPN c).length = pre.length + (toRPN c).length from by
            simp [List.length_append]]
        exact flp_found c hwc hnc pre (OP_COMPLEMENT :: post)
      have htake : (toRPN e).take pre.length = pre := by
        rw [hsplit,
          show pre ++ toRPN c ++ OP_COMPLEMENT :: post =
            pre ++ (toRPN c ++ OP_COMPLEMENT :: post) from by
              simp [List.append_assoc]]
        exact List.take_left pre _
      have hdrop : (toRPN e).drop pre.length = toRPN c ++ OP_COMPLEMENT :: post := by
        rw [hsplit,
          show pre ++ toRPN c ++ OP_COMPLEMENT :: post =
            pre ++ (toRPN c ++ OP_COMPLEMENT :: post) from by
              simp [List.append_assoc]]
        exact List.drop_left pre _
      have hslice : ((toRPN e).drop pre.length).take
          ((pre ++ toRPN c).length - pre.length) = toRPN c := by
        rw [hdrop,
          show (pre ++ toRPN c).length - pre.length = (toRPN c).length from by
            simp [List.length_append]]
        exact List.take_left (toRPN c) _
      have hdrop2 : (toRPN e).drop ((pre ++ toRPN c).length + 1) = post := by
        rw [hsplit,
          show pre ++ toRPN c ++ OP_COMPLEMENT :: post =
            ((pre ++ toRPN c) ++ [OP_COMPLEMENT]) ++ post from by
              simp [List.append_assoc],
          show (pre ++ toRPN c).length + 1 =
            ((pre ++ toRPN c) ++ [OP_COMPLEMENT]).length from by
              simp [List.length_append]
              omega]
        exact List.drop_left _ post
      rw [remove_complement_loop]
      simp only [hfc, hs, htake, hslice, hdrop2]
      rw [apply_demorgan_toRPN c hwc hnc, ← hrep]
      rw [ih (replaceFirst e) (wf_replaceFirst e hw)
        (by have := complCountE_replaceFirst e hn2; omega)]
      rw [elimCompl_replaceFirst e]

/-- `remove_complement_ops` on the RPN of a well-formed expression
computes the RPN of the De Morgan normal form. -/
theorem remove_complement_ops_toRPN (e : RExpr) (hw : wf e = true) :
    remove_complement_ops (toRPN e) = toRPN (elimCompl e) :=
  loop_toRPN (toRPN e).length e hw (complCountE_le_length e)

/-! ## Helpers shared by the claim theorems -/

theorem senseOK_spPos : SenseOK spPos := by
  intro s hs
  by_cases h : 0 < s
  · simp [spPos, h, show ¬(0 < -s) by omega]
  · simp [spPos, h, show 0 < -s by omega]

theorem computeSimple_iff (rpn : List Int) :
    computeSimple rpn = true ↔ OP_UNION ∉ rpn ∧ OP_COMPLEMENT ∉ rpn := by
  simp only [computeSimple, List.all_eq_true]
  constructor
  · intro h
    constructor
    · intro hu
      have := h _ hu
      simp at this
    · intro hc
      have := h _ hc
      simp at this
  · intro hm t ht
    simp only [Bool.not_eq_true', Bool.or_eq_false_iff, decide_eq_false_iff_not]
    exact ⟨fun h => hm.1 (h ▸ ht), fun h => hm.2 (h ▸ ht)⟩

theorem simpleOnly_of_tokens :
    ∀ e : RExpr, wf e = true →
      OP_UNION ∉ toRPN e → OP_COMPLEMENT ∉ toRPN e → simpleOnly e = true := by
  intro e
  induction e with
  | surf s => intro _ _ _; rfl
  | inter a b iha ihb =>
    intro hw hu hc
    simp only [wf, Bool.and_eq_true] at hw
    simp only [toRPN, List.mem_append] at hu hc
    push_neg at hu hc
    simp only [simpleOnly, Bool.and_eq_true]
    exact ⟨iha hw.1 hu.1.1 hc.1.1, ihb hw.2 hu.1.2 hc.1.2⟩
  | union a b iha ihb =>
    intro hw hu hc
    exfalso
    apply hu
    simp [toRPN]
  | compl a iha =>
    intro hw hu hc
    exfalso
    apply hc
    simp [toRPN]

theorem contains_simple_toRPN (sp : Int → Bool) :
    ∀ e : RExpr, wf e = true → simpleOnly e = true →
      contains_simple (toRPN e) sp = evalE sp e := by
  intro e
  induction e with
  | surf s =>
    intro hw hs
    rcases validSurf_iff.mp hw with ⟨h0, hl, hr⟩
    simp only [toRPN, contains_simple, List.all_cons, List.all_nil,
      Bool.and_true, evalE]
    rw [if_pos hr]
  | inter a b iha ihb =>
    intro hw hs
    simp only [wf, Bool.and_eq_true] at hw
    simp only [simpleOnly, Bool.and_eq_true] at hs
    have hop : ¬(OP_INTERSECTION < OP_UNION) := by
      simp only [OP_INTERSECTION, OP_UNION]
      omega
    simp only [toRPN, contains_simple, List.all_append, List.all_cons,
      List.all_nil, Bool.and_true, evalE]
    rw [if_neg hop]
    rw [← contains_simple, ← contains_simple, iha hw.1 hs.1, ihb hw.2 hs.2,
      Bool.and_true]
  | union a b iha ihb =>
    intro hw hs
    simp only [simpleOnly] at hs
    cases hs
  | compl a iha =>
    intro hw hs
    simp only [simpleOnly] at hs
    cases hs

theorem getD_map_lt (f : Int → Int) :
    ∀ (l : List Int) (i : Nat), i < l.length →
      (l.map f).getD i 0 = f (l.getD i 0) := by
  intro l
  induction l with
  | nil => intro i hi; simp at hi
  | cons t ts ih =>
    intro i hi
    cases i with
    | zero => rfl
    | succ i =>
      simp only [List.length_cons, Nat.add_lt_add_iff_right] at hi
      simp only [List.map_cons, List.getD_cons_succ]
      exact ih i hi

/-! ## Claim theorems -/

/-- C1: for every well-formed region expression and every coherent sense
assignment (query point), evaluating containment on the RPN produced by
`remove_complement_ops` gives the same result as evaluating containment on
the original RPN, and the produced RPN contains no `COMPLEMENT` token. -/
theorem c1_remove_complements_correct (e : RExpr) (sp : Int → Bool)
    (hw : wf e = true) (hsp : SenseOK sp) :
    contains_complex (remove_complement_ops (toRPN e)) sp =
      contains_complex (toRPN e) sp ∧
    OP_COMPLEMENT ∉ remove_complement_ops (toRPN e) := by
  constructor
  · rw [remove_complement_ops_toRPN e hw,
      contains_complex_toRPN sp (wf_elimCompl e hw),
      contains_complex_toRPN sp hw, evalE_elimCompl sp hsp e hw]
  · rw [remove_complement_ops_toRPN e hw]
    exact noCompl_toRPN _ (wf_elimCompl e hw) (noCompl_elimCompl e)

/-- Witness for C1 at the concrete region `COMPLEMENT(+1 OR -2)`. -/
theorem c1_witness :
    wf egCompl = true ∧ SenseOK spPos ∧
    (contains_complex (remove_complement_ops (toRPN egCompl)) spPos =
        contains_complex (toRPN egCompl) spPos ∧
      OP_COMPLEMENT ∉ remove_complement_ops (toRPN egCompl)) :=
  ⟨by decide, senseOK_spPos,
    c1_remove_complements_correct egCompl spPos (by decide) senseOK_spPos⟩

/-- C2: for every well-formed region expression whose RPN contains only
surface tokens and `INTERSECTION` operators (the `simple_` flag is true),
and every sense assignment (point, direction and `on_surface` value),
`contains_simple` and `contains_complex` return the same result. -/
theorem c2_simple_complex_agree (e : RExpr) (sp : Int → Bool)
    (hw : wf e = true) (hs : computeSimple (toRPN e) = true) :
    contains_complex (toRPN e) sp = some (contains_simple (toRPN e) sp) := by
  rcases (computeSimple_iff (toRPN e)).mp hs with ⟨hu, hc⟩
  rw [contains_complex_toRPN sp hw,
    contains_simple_toRPN sp e hw (simpleOnly_of_tokens e hw hu hc)]

/-- Witness for C2 at the concrete simple region `+1 AND -2`. -/
theorem c2_witness :
    wf egSimple = true ∧ computeSimple (toRPN egSimple) = true ∧
    contains_complex (toRPN egSimple) spPos =
      some (contains_simple (toRPN egSimple) spPos) :=
  ⟨by decide, by decide, c2_simple_complex_agree egSimple spPos (by decide) (by decide)⟩

/-- C4: `apply_demorgan` swaps every `INTERSECTION` token with `UNION` and
vice versa and negates the sign of every leaf surface token of the span it
is applied to; and removing complements from the RPN
`[+1, -2, UNION, COMPLEMENT]` yields exactly `[-1, +2, INTERSECTION]`. -/
theorem c4_apply_demorgan_spec :
    (∀ (ts : List Int) (i : Nat), i < ts.length →
      (apply_demorgan ts).length = ts.length ∧
      (ts.getD i 0 = OP_INTERSECTION →
        (apply_demorgan ts).getD i 0 = OP_UNION) ∧
      (ts.getD i 0 = OP_UNION →
        (apply_demorgan ts).getD i 0 = OP_INTERSECTION) ∧
      (validSurf (ts.getD i 0) = true →
        (apply_demorgan ts).getD i 0 = -(ts.getD i 0))) ∧
    remove_complement_ops [1, -2, OP_UNION, OP_COMPLEMENT] =
      [-1, 2, OP_INTERSECTION] := by
  constructor
  · intro ts i hi
    refine ⟨by simp [apply_demorgan], ?_, ?_, ?_⟩
    · intro h
      rw [apply_demorgan, getD_map_lt demorganTok ts i hi, h, demorganTok_inter]
    · intro h
      rw [apply_demorgan, getD_map_lt demorganTok ts i hi, h, demorganTok_union]
    · intro h
      rw [apply_demorgan, getD_map_lt demorganTok ts i hi, demorganTok_surf h]
  · decide

/-- Witness for C4 at the span `[UNION]` and position 0. -/
theorem c4_witness :
    0 < ([OP_UNION] : List Int).length ∧
    (apply_demorgan [OP_UNION]).getD 0 0 = OP_INTERSECTION := by
  refine ⟨by decide, ?_⟩
  have h := c4_apply_demorgan_spec.1 [OP_UNION] 0 (by decide)
  exact h.2.2.1 (by decide)

/-- C5: for every constructed cell, the `simple_` flag is true exactly
when the RPN contains no `UNION` token and no `COMPLEMENT` token. -/
theorem c5_simple_flag_iff (e : RExpr) :
    (mkCSGCell e).simple_ = true ↔
      OP_UNION ∉ (mkCSGCell e).rpn_ ∧ OP_COMPLEMENT ∉ (mkCSGCell e).rpn_ :=
  computeSimple_iff (toRPN e)

/-- Witness for C5 at the concrete simple region `+1 AND -2`. -/
theorem c5_witness :
    OP_UNION ∉ (mkCSGCell egSimple).rpn_ ∧
    OP_COMPLEMENT ∉ (mkCSGCell egSimple).rpn_ :=
  (c5_simple_flag_iff egSimple).mp (by decide)

/-- C6: `remove_complement_ops` is idempotent on the RPN of every
well-formed region expression: a complement-free RPN is a fixed point. -/
theorem c6_remove_complement_ops_idempotent (e : RExpr) (hw : wf e = true) :
    remove_complement_ops (remove_complement_ops (toRPN e)) =
      remove_complement_ops (toRPN e) := by
  rw [remove_complement_ops_toRPN e hw,
    remove_complement_ops_toRPN (elimCompl e) (wf_elimCompl e hw),
    elimCompl_of_noCompl _ (noCompl_elimCompl e)]

/-- Witness for C6 at the concrete region `COMPLEMENT(+1 OR -2)`. -/
theorem c6_witness :
    wf egCompl = true ∧
    remove_complement_ops (remove_complement_ops (toRPN egCompl)) =
      remove_complement_ops (toRPN egCompl) :=
  ⟨by decide, c6_remove_complement_ops_idempotent egCompl (by decide)⟩

/-! ## Bounding-box lemmas and claim C3 -/

theorem inBox_universe {α : Type} [LinearOrder α] (p : Point α) :
    inBox p (universeBox : BoundingBox α) := by
  refine ⟨bot_le, le_top, bot_le, le_top, bot_le, le_top⟩

theorem inBox_boxInter {α : Type} [LinearOrder α] (p : Point α)
    (a b : BoundingBox α) :
    inBox p (boxInter a b) ↔ inBox p a ∧ inBox p b := by
  simp only [inBox, boxInter, max_le_iff, le_min_iff]
  tauto

theorem inBox_boxUnion_left {α : Type} [LinearOrder α] (p : Point α)
    (a b : BoundingBox α) (h : inBox p a) : inBox p (boxUnion a b) := by
  obtain ⟨h1, h2, h3, h4, h5, h6⟩ := h
  exact ⟨le_trans (min_le_left _ _) h1, le_trans h2 (le_max_left _ _),
    le_trans (min_le_left _ _) h3, le_trans h4 (le_max_left _ _),
    le_trans (min_le_left _ _) h5, le_trans h6 (le_max_left _ _)⟩

theorem inBox_boxUnion_right {α : Type} [LinearOrder α] (p : Point α)
    (a b : BoundingBox α) (h : inBox p b) : inBox p (boxUnion a b) := by
  obtain ⟨h1, h2, h3, h4, h5, h6⟩ := h
  exact ⟨le_trans (min_le_right _ _) h1, le_trans h2 (le_max_right _ _),
    le_trans (min_le_right _ _) h3, le_trans h4 (le_max_right _ _),
    le_trans (min_le_right _ _) h5, le_trans h6 (le_max_right _ _)⟩

theorem boxTok_surf {α : Type} [LinearOrder α] (sbox : Int → BoundingBox α)
    (st : List (BoundingBox α)) {s : Int} (h : validSurf s = true) :
    boxTok sbox (some st) s = some (sbox s :: st) := by
  rcases validSurf_iff.mp h with ⟨h0, hl, hr⟩
  simp only [OP_UNION] at hl hr
  have h1 : s ≠ OP_UNION := by simp only [OP_UNION]; omega
  have h2 : s ≠ OP_INTERSECTION := by simp only [OP_INTERSECTION]; omega
  have h3 : s ≠ OP_COMPLEMENT := by simp only [OP_COMPLEMENT]; omega
  have h4 : ¬(s = OP_LEFT_PAREN ∨ s = OP_RIGHT_PAREN) := by
    simp only [OP_LEFT_PAREN, OP_RIGHT_PAREN]
    omega
  simp only [boxTok, if_neg h1, if_neg h2, if_neg h3, if_neg h4]

theorem boxTok_inter {α : Type} [LinearOrder α] (sbox : Int → BoundingBox α)
    (a b : BoundingBox α) (r : List (BoundingBox α)) :
    boxTok sbox (some (a :: b :: r)) OP_INTERSECTION =
      some (boxInter b a :: r) := by
  have h1 : OP_INTERSECTION ≠ OP_UNION := by decide
  simp only [boxTok, if_neg h1, if_pos rfl]
  rfl

theorem boxTok_union {α : Type} [LinearOrder α] (sbox : Int → BoundingBox α)
    (a b : BoundingBox α) (r : List (BoundingBox α)) :
    boxTok sbox (some (a :: b :: r)) OP_UNION = some (boxUnion b a :: r) := by
  simp only [boxTok, if_pos rfl]
  rfl

theorem foldl_boxTok {α : Type} [LinearOrder α] (sbox : Int → BoundingBox α) :
    ∀ e : RExpr, wf e = true → noCompl e = true →
      ∀ st : List (BoundingBox α),
        (toRPN e).foldl (boxTok sbox) (some st) =
          some (boxOf sbox e :: st) := by
  intro e
  induction e with
  | surf s =>
    intro hw hn st
    simp only [toRPN, List.foldl_cons, List.foldl_nil]
    rw [boxTok_surf sbox st hw]
    rfl
  | inter a b iha ihb =>
    intro hw hn st
    simp only [wf, Bool.and_eq_true] at hw
    simp only [noCompl, Bool.and_eq_true] at hn
    simp only [toRPN, List.foldl_append, List.foldl_cons, List.foldl_nil]
    rw [iha hw.1 hn.1, ihb hw.2 hn.2, boxTok_inter]
    rfl
  | union a b iha ihb =>
    intro hw hn st
    simp only [wf, Bool.and_eq_true] at hw
    simp only [noCompl, Bool.and_eq_true] at hn
    simp only [toRPN, List.foldl_append, List.foldl_cons, List.foldl_nil]
    rw [iha hw.1 hn.1, ihb hw.2 hn.2, boxTok_union]
    rfl
  | compl a iha =>
    intro hw hn
    simp only [noCompl] at hn
    cases hn

theorem bounding_box_complex_toRPN {α : Type} [LinearOrder α]
    (sbox : Int → BoundingBox α) (e : RExpr) (hw : wf e = true)
    (hn : noCompl e = true) :
    bounding_box_complex (toRPN e) sbox = some (boxOf sbox e) := by
  rw [bounding_box_complex, foldl_boxTok sbox e hw hn]

theorem boxOf_sound {α : Type} [LinearOrder α] (sp : Int → Bool)
    (sbox : Int → BoundingBox α) (p : Point α)
    (hleaf : ∀ t : Int, sp t = true → inBox p (sbox t)) :
    ∀ e : RExpr, noCompl e = true → evalE sp e = true →
      inBox p (boxOf sbox e) := by
  intro e
  induction e with
  | surf s =>
    intro hn he
    exact hleaf s he
  | inter a b iha ihb =>
    intro hn he
    simp only [noCompl, Bool.and_eq_true] at hn
    simp only [evalE, Bool.and_eq_true] at he
    exact (inBox_boxInter p _ _).mpr ⟨iha hn.1 he.1, ihb hn.2 he.2⟩
  | union a b iha ihb =>
    intro hn he
    simp only [noCompl, Bool.and_eq_true] at hn
    simp only [evalE, Bool.or_eq_true] at he
    rcases he with he | he
    · exact inBox_boxUnion_left p _ _ (iha hn.1 he)
    · exact inBox_boxUnion_right p _ _ (ihb hn.2 he)
  | compl a iha =>
    intro hn he
    simp only [noCompl] at hn
    cases hn

theorem foldl_boxInter_sound {α : Type} [LinearOrder α]
    (sbox : Int → BoundingBox α) (p : Point α) :
    ∀ (l : List Int) (b : BoundingBox α), inBox p b →
      (∀ t ∈ l, t < OP_UNION → inBox p (sbox t)) →
      inBox p (l.foldl
        (fun b t => if t < OP_UNION then boxInter b (sbox t) else b) b) := by
  intro l
  induction l with
  | nil => intro b hb _; exact hb
  | cons t ts ih =>
    intro b hb hl
    simp only [List.foldl_cons]
    by_cases ht : t < OP_UNION
    · rw [if_pos ht]
      refine ih _ ((inBox_boxInter p b (sbox t)).mpr
        ⟨hb, hl t (List.mem_cons_self t ts) ht⟩) ?_
      intro u hu hu2
      exact hl u (List.mem_cons_of_mem t hu) hu2
    · rw [if_neg ht]
      refine ih _ hb ?_
      intro u hu hu2
      exact hl u (List.mem_cons_of_mem t hu) hu2

/-- C3: for every well-formed region expression and every query point, if
`contains` returns true then the point lies in the box returned by
`bounding_box` — the box may be loose but never excludes a contained
point.  Each surface's bounding box is assumed sound for its half-space
(the external Surface primitive of spec section 6). -/
theorem c3_bounding_box_sound (e : RExpr) (sp : Int → Bool)
    (sbox : Int → BoundingBox ℝ) (p : Point ℝ)
    (hw : wf e = true) (hsp : SenseOK sp)
    (hleaf : ∀ t : Int, sp t = true → inBox p (sbox t))
    (hc : contains (toRPN e) (computeSimple (toRPN e)) sp = some true) :
    ∃ b, bounding_box (toRPN e) (computeSimple (toRPN e)) sbox = some b ∧
      inBox p b := by
  by_cases hs : computeSimple (toRPN e) = true
  · rw [contains, if_pos hs] at hc
    rw [bounding_box, if_pos hs]
    refine ⟨bounding_box_simple (toRPN e) sbox, rfl, ?_⟩
    have hall := Option.some_injective _ hc
    rw [contains_simple, List.all_eq_true] at hall
    refine foldl_boxInter_sound sbox p (toRPN e) universeBox
      (inBox_universe p) ?_
    intro t ht ht2
    have := hall t ht
    rw [if_pos ht2] at this
    exact hleaf t this
  · have hs2 : computeSimple (toRPN e) = false := by
      cases hx : computeSimple (toRPN e)
      · rfl
      · exact absurd hx hs
    rw [contains, if_neg hs] at hc
    rw [contains_complex_toRPN sp hw] at hc
    have he : evalE sp e = true := Option.some_injective _ hc
    rw [bounding_box, if_neg hs, remove_complement_ops_toRPN e hw,
      bounding_box_complex_toRPN sbox (elimCompl e) (wf_elimCompl e hw)
        (noCompl_elimCompl e)]
    refine ⟨boxOf sbox (elimCompl e), rfl, ?_⟩
    refine boxOf_sound sp sbox p hleaf (elimCompl e) (noCompl_elimCompl e) ?_
    rw [evalE_elimCompl sp hsp e hw]
    exact he

/-- Witness for C3 at the region `+1`, the all-positive sense assignment,
unbounded surface boxes and the origin. -/
theorem c3_witness :
    wf (RExpr.surf 1) = true ∧
    contains (toRPN (RExpr.surf 1)) (computeSimple (toRPN (RExpr.surf 1)))
        spPos = some true ∧
    ∃ b, bounding_box (toRPN (RExpr.surf 1))
        (computeSimple (toRPN (RExpr.surf 1)))
        (fun _ => (universeBox : BoundingBox ℝ)) = some b ∧
      inBox (((0 : ℝ), (0 : ℝ), (0 : ℝ)) : Point ℝ) b :=
  ⟨by decide, by decide,
    c3_bounding_box_sound (RExpr.surf 1) spPos
      (fun _ => (universeBox : BoundingBox ℝ)) ((0 : ℝ), (0 : ℝ), (0 : ℝ))
      (by decide) senseOK_spPos (fun t _ => inBox_universe _) (by decide)⟩

/-! ## Geometry lemmas: the counter-tracking search enumerates instances
in depth-first order -/

mutual
theorem exFindT_eq (c : Nat) :
    ∀ (t : GTree) (k : Nat),
      exFindT c t k = ((cellPathsT c t)[k]?, k - (cellPathsT c t).length)
  | .mat i, k => by
    by_cases hi : i = c
    · simp only [exFindT, if_pos hi, cellPathsT, if_pos hi]
      cases k with
      | zero => simp
      | succ k => simp
    · simp [exFindT, hi, cellPathsT]
  | .node i f, k => by
    by_cases hi : i = c
    · simp only [exFindT, if_pos hi, cellPathsT, if_pos hi]
      cases k with
      | zero => simp
      | succ k =>
        rw [if_neg (Nat.succ_ne_zero k)]
        simp only [Nat.add_sub_cancel]
        rw [exFindF_eq c 0 f k]
        simp only [List.singleton_append, List.getElem?_cons_succ,
          List.length_cons, Prod.mk.injEq]
        exact ⟨trivial, by omega⟩
    · simp only [exFindT, if_neg hi, cellPathsT, if_neg hi, List.nil_append]
      exact exFindF_eq c 0 f k
theorem exFindF_eq (c : Nat) :
    ∀ (idx : Nat) (f : GForest) (k : Nat),
      exFindF c idx f k =
        ((cellPathsF c idx f)[k]?, k - (cellPathsF c idx f).length)
  | idx, .fnil, k => by simp [exFindF, cellPathsF]
  | idx, .fcons t f, k => by
    rw [exFindF, exFindT_eq c t k]
    by_cases hk : k < (cellPathsT c t).length
    · obtain ⟨p, hp⟩ : ∃ p, (cellPathsT c t)[k]? = some p := by
        rw [List.getElem?_eq_getElem hk]
        exact ⟨_, rfl⟩
      rw [hp]
      show (some (idx :: p), k - (cellPathsT c t).length) = _
      simp only [cellPathsF]
      have hmap : ((cellPathsT c t).map (fun p => idx :: p) ++
          cellPathsF c (idx + 1) f)[k]? = some (idx :: p) := by
        rw [List.getElem?_append_left (by simpa using hk),
          List.getElem?_map, hp]
        rfl
      rw [hmap]
      simp only [List.length_append, List.length_map, Prod.mk.injEq]
      exact ⟨trivial, by omega⟩
    · have hnone : (cellPathsT c t)[k]? = none :=
        List.getElem?_eq_none_iff.mpr (Nat.le_of_not_lt hk)
      rw [hnone]
      show exFindF c (idx + 1) f (k - (cellPathsT c t).length) = _
      rw [exFindF_eq c (idx + 1) f (k - (cellPathsT c t).length)]
      simp only [cellPathsF]
      have hmap : ((cellPathsT c t).map (fun p => idx :: p) ++
          cellPathsF c (idx + 1) f)[k]? =
          (cellPathsF c (idx + 1) f)[k - (cellPathsT c t).length]? := by
        rw [List.getElem?_append_right (by simpa using Nat.le_of_not_lt hk)]
        simp
      rw [hmap]
      simp only [List.length_append, List.length_map, Prod.mk.injEq]
      exact ⟨trivial, by omega⟩
end

/-- C7: for every valid instance number, the point-guided
`find_parent_cells` and the counter-tracking
`exhaustive_find_parent_cells` return the same ancestry chain. -/
theorem c7_find_parent_cells_agree (t : GTree) (c : Nat) (k : Nat)
    (_hk : k < n_instances t c) :
    find_parent_cells t c k = exhaustive_find_parent_cells t c k := by
  rw [find_parent_cells, exhaustive_find_parent_cells, exFindT_eq]

/-- Witness for C7 at the sample geometry, cell 1, instance 1. -/
theorem c7_witness :
    1 < n_instances egTree 1 ∧
    find_parent_cells egTree 1 1 = exhaustive_find_parent_cells egTree 1 1 := by
  have h1 : 1 < n_instances egTree 1 := by
    simp [n_instances, egTree, cellPathsT, cellPathsF]
  exact ⟨h1, c7_find_parent_cells_agree egTree 1 1 h1⟩

/-! ## Geometry lemmas: chains, occurrences and instance numbering -/

theorem mem_of_getElem {β : Type} (l : List β) (j : Nat) (a : β)
    (h : l[j]? = some a) : a ∈ l := by
  obtain ⟨hlt, rfl⟩ := List.getElem?_eq_some_iff.mp h
  exact List.getElem_mem hlt

theorem subAt_append :
    ∀ (p q : List Nat) (t : GTree),
      subAt t (p ++ q) = (subAt t p).bind (fun s => subAt s q) := by
  intro p
  induction p with
  | nil => intro q t; cases t <;> rfl
  | cons k p ih =>
    intro q t
    cases t with
    | mat i => rfl
    | node i f =>
      simp only [List.cons_append, subAt]
      cases hf : fget f k with
      | none => rfl
      | some t2 => exact ih q t2

mutual
theorem mem_cellPathsT (c : Nat) :
    ∀ (t : GTree) (r : List Nat),
      r ∈ cellPathsT c t ↔ ∃ s, subAt t r = some s ∧ idOf s = c
  | .mat i, r => by
    cases r with
    | nil =>
      by_cases hi : i = c
      · simp [cellPathsT, hi, subAt, idOf]
      · simp [cellPathsT, hi, subAt, idOf]
    | cons k q =>
      by_cases hi : i = c
      · simp [cellPathsT, hi, subAt]
      · simp [cellPathsT, hi, subAt]
  | .node i f, r => by
    cases r with
    | nil =>
      have hsh : ([] : List Nat) ∉ cellPathsF c 0 f := by
        intro hmem
        obtain ⟨j, q, tc, habs, _⟩ := (mem_cellPathsF2 c 0 f []).mp hmem
        cases habs
      by_cases hi : i = c
      · simp [cellPathsT, hi, subAt, idOf]
      · simp only [cellPathsT, if_neg hi, List.nil_append, subAt]
        constructor
        · intro hmem
          exact absurd hmem hsh
        · rintro ⟨s, hs, hid⟩
          obtain rfl := Option.some_injective _ hs.symm
          exact absurd hid.symm (fun h => hi h.symm)
    | cons k q =>
      have hcons : (k :: q) ∈ cellPathsT c (.node i f) ↔
          (k :: q) ∈ cellPathsF c 0 f := by
        by_cases hi : i = c
        · simp [cellPathsT, hi]
        · simp [cellPathsT, hi]
      rw [hcons, mem_cellPathsF2 c 0 f (k :: q)]
      constructor
      · rintro ⟨j, q2, tc, heq, hg, s, hs, hid⟩
        have hj : j = k := by
          injection heq with h1 h2
          omega
        have hq : q2 = q := by
          injection heq with h1 h2
          exact h2.symm
        subst hj
        subst hq
        refine ⟨s, ?_, hid⟩
        simp only [subAt, hg]
        exact hs
      · rintro ⟨s, hs, hid⟩
        cases hf : fget f k with
        | none =>
          rw [subAt, hf] at hs
          cases hs
        | some tc =>
          have hs2 : subAt tc q = some s := by
            rw [subAt, hf] at hs
            exact hs
          exact ⟨k, q, tc, by simp, hf, s, hs2, hid⟩
theorem mem_cellPathsF2 (c : Nat) :
    ∀ (idx : Nat) (f : GForest) (r : List Nat),
      r ∈ cellPathsF c idx f ↔
        ∃ j q tc, r = (idx + j) :: q ∧ fget f j = some tc ∧
          ∃ s, subAt tc q = some s ∧ idOf s = c
  | idx, .fnil, r => by simp [cellPathsF, fget]
  | idx, .fcons t f, r => by
    simp only [cellPathsF, List.mem_append, List.mem_map]
    rw [mem_cellPathsF2 c (idx + 1) f r]
    constructor
    · rintro (⟨q, hq, rfl⟩ | ⟨j, q, tc, rfl, hg, hs⟩)
      · refine ⟨0, q, t, by simp, rfl, ?_⟩
        exact (mem_cellPathsT c t q).mp hq
      · refine ⟨j + 1, q, tc, ?_, hg, hs⟩
        rw [show idx + (j + 1) = idx + 1 + j by omega]
    · rintro ⟨j, q, tc, rfl, hg, hs⟩
      cases j with
      | zero =>
        simp only [fget] at hg
        obtain rfl : t = tc := Option.some_injective _ hg
        left
        exact ⟨q, (mem_cellPathsT c t q).mpr hs, by simp⟩
      | succ j =>
        right
        refine ⟨j, q, tc, ?_, ?_, hs⟩
        · rw [show idx + 1 + j = idx + (j + 1) by omega]
        · simpa only [fget] using hg
end

mutual
theorem nodup_cellPathsT (c : Nat) : ∀ t : GTree, (cellPathsT c t).Nodup
  | .mat i => by
    by_cases hi : i = c
    · simp [cellPathsT, hi]
    · simp [cellPathsT, hi]
  | .node i f => by
    have hf := nodup_cellPathsF c 0 f
    by_cases hi : i = c
    · simp only [cellPathsT, if_pos hi]
      refine List.Nodup.append (by simp) hf ?_
      intro r hr1 hr2
      simp only [List.mem_singleton] at hr1
      subst hr1
      obtain ⟨j, q, tc, habs, _⟩ := (mem_cellPathsF2 c 0 f []).mp hr2
      cases habs
    · simp only [cellPathsT, if_neg hi, List.nil_append]
      exact hf
theorem nodup_cellPathsF (c : Nat) :
    ∀ (idx : Nat) (f : GForest), (cellPathsF c idx f).Nodup
  | idx, .fnil => by simp [cellPathsF]
  | idx, .fcons t f => by
    simp only [cellPathsF]
    refine List.Nodup.append
      (List.Nodup.map (fun x y h => by simpa using h) (nodup_cellPathsT c t))
      (nodup_cellPathsF c (idx + 1) f) ?_
    intro r hr1 hr2
    obtain ⟨q, hq, rfl⟩ := List.mem_map.mp hr1
    obtain ⟨j, q2, tc, habs, _⟩ := (mem_cellPathsF2 c (idx + 1) f _).mp hr2
    injection habs with h1 h2
    omega
end

mutual
theorem mem_leafPathsT :
    ∀ (t : GTree) (d : Nat) (r : List Nat),
      (d, r) ∈ leafPathsT t ↔ subAt t r = some (GTree.mat d)
  | .mat i, d, r => by
    cases r with
    | nil =>
      simp only [leafPathsT, List.mem_singleton, Prod.mk.injEq, subAt,
        Option.some_inj, GTree.mat.injEq]
      constructor
      · rintro ⟨h1, _⟩
        exact h1.symm
      · intro h
        exact ⟨h.symm, trivial⟩
    | cons k q => simp [leafPathsT, subAt]
  | .node i f, d, r => by
    cases r with
    | nil =>
      simp only [leafPathsT, subAt]
      constructor
      · intro hmem
        obtain ⟨j, q, habs, _⟩ := (mem_leafPathsF 0 f d []).mp hmem
        cases habs
      · intro h
        cases h
    | cons k q =>
      rw [show leafPathsT (.node i f) = leafPathsF 0 f from rfl,
        mem_leafPathsF 0 f d (k :: q)]
      constructor
      · rintro ⟨j, q2, heq, tc, hg, hs⟩
        have hj : j = k := by
          injection heq with h1 h2
          omega
        have hq : q2 = q := by
          injection heq with h1 h2
          exact h2.symm
        subst hj
        subst hq
        rw [subAt, hg]
        exact hs
      · intro hs
        cases hf : fget f k with
        | none =>
          rw [subAt, hf] at hs
          cases hs
        | some tc =>
          rw [subAt, hf] at hs
          exact ⟨k, q, by simp, tc, hf, hs⟩
theorem mem_leafPathsF :
    ∀ (idx : Nat) (f : GForest) (d : Nat) (r : List Nat),
      (d, r) ∈ leafPathsF idx f ↔
        ∃ j q, r = (idx + j) :: q ∧ ∃ tc, fget f j = some tc ∧
          subAt tc q = some (GTree.mat d)
  | idx, .fnil, d, r => by simp [leafPathsF, fget]
  | idx, .fcons t f, d, r => by
    simp only [leafPathsF, List.mem_append, List.mem_map]
    rw [mem_leafPathsF (idx + 1) f d r]
    constructor
    · rintro (⟨dq, hdq, heq⟩ | ⟨j, q, rfl, tc, hg, hs⟩)
      · obtain ⟨rfl, rfl⟩ : dq.1 = d ∧ (idx :: dq.2) = r := by
          injection heq with h1 h2
          exact ⟨h1, h2⟩
        refine ⟨0, dq.2, by simp, t, rfl, ?_⟩
        exact (mem_leafPathsT t dq.1 dq.2).mp hdq
      · refine ⟨j + 1, q, ?_, tc, ?_, hs⟩
        · rw [show idx + (j + 1) = idx + 1 + j by omega]
        · exact hg
    · rintro ⟨j, q, rfl, tc, hg, hs⟩
      cases j with
      | zero =>
        simp only [fget] at hg
        obtain rfl : t = tc := Option.some_injective _ hg
        left
        exact ⟨(d, q), (mem_leafPathsT t d q).mpr hs, by simp⟩
      | succ j =>
        right
        refine ⟨j, q, ?_, tc, ?_, hs⟩
        · rw [show idx + 1 + j = idx + (j + 1) by omega]
        · simpa only [fget] using hg
end

mutual
theorem nodup_leafPathsT : ∀ t : GTree, (leafPathsT t).Nodup
  | .mat i => by simp [leafPathsT]
  | .node i f => nodup_leafPathsF 0 f
theorem nodup_leafPathsF : ∀ (idx : Nat) (f : GForest), (leafPathsF idx f).Nodup
  | idx, .fnil => by simp [leafPathsF]
  | idx, .fcons t f => by
    simp only [leafPathsF]
    refine List.Nodup.append
      (List.Nodup.map ?_ (nodup_leafPathsT t)) (nodup_leafPathsF (idx + 1) f) ?_
    · intro x y h
      cases x
      cases y
      simpa using h
    · intro r hr1 hr2
      obtain ⟨dq, hdq, rfl⟩ := List.mem_map.mp hr1
      obtain ⟨j, q2, habs, _⟩ := (mem_leafPathsF (idx + 1) f dq.1 _).mp hr2
      injection habs with h1 h2
      omega
end

theorem idxOfPath_getElem :
    ∀ (L : List (List Nat)) (r : List Nat), r ∈ L →
      L[idxOfPath r L]? = some r := by
  intro L
  induction L with
  | nil => intro r h; cases h
  | cons x xs ih =>
    intro r h
    by_cases hx : x = r
    · subst hx
      simp [idxOfPath]
    · rw [idxOfPath, if_neg hx]
      have hr : r ∈ xs := by
        rcases List.mem_cons.mp h with h1 | h1
        · exact absurd h1.symm hx
        · exact h1
      simpa using ih r hr

theorem idxOfPath_of_getElem :
    ∀ (L : List (List Nat)), L.Nodup → ∀ (j : Nat) (r : List Nat),
      L[j]? = some r → idxOfPath r L = j := by
  intro L
  induction L with
  | nil =>
    intro _ j r h
    simp at h
  | cons x xs ih =>
    intro hnd j r h
    cases j with
    | zero =>
      simp only [List.getElem?_cons_zero, Option.some_inj] at h
      subst h
      simp [idxOfPath]
    | succ j =>
      simp only [List.getElem?_cons_succ] at h
      have hr : r ∈ xs := mem_of_getElem _ _ _ h
      have hx : x ≠ r := by
        intro he
        subst he
        exact (List.nodup_cons.mp hnd).1 hr
      rw [idxOfPath, if_neg hx, ih (List.nodup_cons.mp hnd).2 j r h]

theorem mem_containedLeafPaths (s : GTree) (d : Nat) (q : List Nat) :
    (d, q) ∈ containedLeafPaths s ↔
      q ≠ [] ∧ subAt s q = some (GTree.mat d) := by
  cases s with
  | mat i =>
    cases q with
    | nil => simp [containedLeafPaths]
    | cons k q2 => simp [containedLeafPaths, subAt]
  | node i f =>
    cases q with
    | nil =>
      simp only [ne_eq, not_true_eq_false, false_and, iff_false]
      intro hmem
      obtain ⟨j, q2, habs, _⟩ :=
        (mem_leafPathsF 0 f d []).mp
          (by simpa only [containedLeafPaths] using hmem)
      cases habs
    | cons k q2 =>
      rw [show containedLeafPaths (.node i f) = leafPathsT (.node i f) from rfl,
        mem_leafPathsT (.node i f) d (k :: q2)]
      simp

theorem nodup_containedLeafPaths : ∀ s : GTree, (containedLeafPaths s).Nodup
  | .mat i => by simp [containedLeafPaths]
  | .node i f => nodup_leafPathsF 0 f

/-- C8: for every valid instance of a cell, `get_contained_cells` lists
each (leaf cell, instance) pair exactly once, and the pairs are exactly
the material-leaf occurrences strictly below the given instance, each
paired with its depth-first instance number. -/
theorem c8_get_contained_cells (t : GTree) (c : Nat) (k : Nat) (p : List Nat)
    (hk : (cellPathsT c t)[k]? = some p) :
    ∃ l, get_contained_cells t c k = some l ∧ l.Nodup ∧
      ∀ d j, (d, j) ∈ l ↔
        ∃ r, (cellPathsT d t)[j]? = some r ∧ (∃ q, q ≠ [] ∧ r = p ++ q) ∧
          subAt t r = some (GTree.mat d) := by
  have hmem : p ∈ cellPathsT c t := mem_of_getElem _ _ _ hk
  obtain ⟨s, hsub, hid⟩ := (mem_cellPathsT c t p).mp hmem
  have hgcc : get_contained_cells t c k =
      some ((containedLeafPaths s).map
        (fun dq => (dq.1, instOf t dq.1 (p ++ dq.2)))) := by
    rw [get_contained_cells, hk]
    show (match subAt t p with
      | none => none
      | some s => some ((containedLeafPaths s).map
          (fun dq : Nat × List Nat =>
            (dq.1, instOf t dq.1 (p ++ dq.2))))) = _
    rw [hsub]
  have hforward : ∀ d q, (d, q) ∈ containedLeafPaths s →
      subAt t (p ++ q) = some (GTree.mat d) ∧ q ≠ [] := by
    intro d q hq
    obtain ⟨hne, hq2⟩ := (mem_containedLeafPaths s d q).mp hq
    refine ⟨?_, hne⟩
    rw [subAt_append, hsub]
    simpa using hq2
  have hmemPaths : ∀ d q, (d, q) ∈ containedLeafPaths s →
      (p ++ q) ∈ cellPathsT d t := by
    intro d q hq
    exact (mem_cellPathsT d t (p ++ q)).mpr
      ⟨GTree.mat d, (hforward d q hq).1, rfl⟩
  refine ⟨_, hgcc, ?_, ?_⟩
  · refine List.Nodup.map_on ?_ (nodup_containedLeafPaths s)
    rintro ⟨d1, q1⟩ hx ⟨d2, q2⟩ hy hxy
    simp only [Prod.mk.injEq] at hxy
    obtain ⟨rfl, h2⟩ := hxy
    have m1 := hmemPaths d1 q1 hx
    have m2 := hmemPaths d1 q2 hy
    have e1 : (cellPathsT d1 t)[idxOfPath (p ++ q1) (cellPathsT d1 t)]? =
        some (p ++ q1) := idxOfPath_getElem _ _ m1
    have e2 : (cellPathsT d1 t)[idxOfPath (p ++ q2) (cellPathsT d1 t)]? =
        some (p ++ q2) := idxOfPath_getElem _ _ m2
    rw [instOf, instOf] at h2
    rw [h2, e2] at e1
    have := List.append_cancel_left (Option.some_injective _ e1)
    rw [this]
  · intro d j
    rw [List.mem_map]
    constructor
    · rintro ⟨⟨d2, q⟩, hq, heq⟩
      simp only [Prod.mk.injEq] at heq
      obtain ⟨rfl, rfl⟩ := heq
      refine ⟨p ++ q, ?_,
        ⟨q, ((mem_containedLeafPaths s d2 q).mp hq).1, rfl⟩,
        (hforward d2 q hq).1⟩
      rw [instOf]
      exact idxOfPath_getElem _ _ (hmemPaths d2 q hq)
    · rintro ⟨r, hr, ⟨q, hqne, rfl⟩, hrs⟩
      have hq0 : subAt s q = some (GTree.mat d) := by
        have hcomp := subAt_append p q t
        rw [hsub] at hcomp
        simp only [Option.some_bind] at hcomp
        rw [← hcomp]
        exact hrs
      have hmem0 : (d, q) ∈ containedLeafPaths s :=
        (mem_containedLeafPaths s d q).mpr ⟨hqne, hq0⟩
      refine ⟨(d, q), hmem0, ?_⟩
      simp only [Prod.mk.injEq]
      refine ⟨trivial, ?_⟩
      rw [instOf]
      exact idxOfPath_of_getElem _ (nodup_cellPathsT d t) j (p ++ q) hr

/-- Witness for C8 at the sample geometry, cell 0, instance 0. -/
theorem c8_witness :
    (cellPathsT 0 egTree)[0]? = some [] ∧
    ∃ l, get_contained_cells egTree 0 0 = some l ∧ l.Nodup ∧
      ∀ d j, (d, j) ∈ l ↔
        ∃ r, (cellPathsT d egTree)[j]? = some r ∧
          (∃ q, q ≠ [] ∧ r = [] ++ q) ∧
          subAt egTree r = some (GTree.mat d) := by
  have h0 : (cellPathsT 0 egTree)[0]? = some [] := by
    simp [egTree, cellPathsT, cellPathsF]
  exact ⟨h0, c8_get_contained_cells egTree 0 0 [] h0⟩

/-! ## Claims C9 (rotation setter) and C10 (cell-instance hashing) -/

/-- C9: `set_rotation` accepts vectors of length 3 or 9 only.  Given 3
angles it stores the derived row-major matrix followed by the original
angles (length 12); given 9 values it stores them as the matrix; any other
length reports InvalidArgument and leaves the prior rotation unchanged. -/
theorem c9_set_rotation_spec (cosd sind : ℝ → ℝ) (prior rot : List ℝ) :
    (rot.length = 3 →
      (set_rotation cosd sind prior rot).err = none ∧
      (set_rotation cosd sind prior rot).rotation_.length = 12 ∧
      (set_rotation cosd sind prior rot).rotation_.take 9 =
        rotMatrix cosd sind (rot.getD 0 0) (rot.getD 1 0) (rot.getD 2 0) ∧
      (set_rotation cosd sind prior rot).rotation_.drop 9 = rot) ∧
    (rot.length = 9 →
      (set_rotation cosd sind prior rot).err = none ∧
      (set_rotation cosd sind prior rot).rotation_ = rot) ∧
    (rot.length ≠ 3 → rot.length ≠ 9 →
      (set_rotation cosd sind prior rot).err = some CellErr.InvalidArgument ∧
      (set_rotation cosd sind prior rot).rotation_ = prior) := by
  refine ⟨?_, ?_, ?_⟩
  · intro h3
    rw [set_rotation, if_pos h3]
    have hlen : (rotMatrix cosd sind (rot.getD 0 0) (rot.getD 1 0)
        (rot.getD 2 0)).length = 9 := rfl
    refine ⟨rfl, ?_, ?_, ?_⟩
    · simp only [List.length_append, hlen, h3]
    · rw [show (9 : Nat) = (rotMatrix cosd sind (rot.getD 0 0) (rot.getD 1 0)
        (rot.getD 2 0)).length from hlen.symm]
      exact List.take_left _ _
    · rw [show (9 : Nat) = (rotMatrix cosd sind (rot.getD 0 0) (rot.getD 1 0)
        (rot.getD 2 0)).length from hlen.symm]
      exact List.drop_left _ _
  · intro h9
    by_cases h3 : rot.length = 3
    · rw [h3] at h9
      cases h9
    · rw [set_rotation, if_neg h3, if_pos h9]
      exact ⟨rfl, rfl⟩
  · intro h3 h9
    rw [set_rotation, if_neg h3, if_neg h9]
    exact ⟨rfl, rfl⟩

/-- Witness for C9 at the concrete calls `set_rotation([30, 0, 0])` and
`set_rotation([1, 2, 3, 4])` of the spec's scenario. -/
theorem c9_witness :
    (([30, 0, 0] : List ℝ).length = 3 ∧
      (set_rotation id id [] [30, 0, 0]).err = none ∧
      (set_rotation id id [] [30, 0, 0]).rotation_.length = 12 ∧
      (set_rotation id id [] [30, 0, 0]).rotation_.drop 9 = [30, 0, 0]) ∧
    (([1, 2, 3, 4] : List ℝ).length ≠ 3 ∧
      ([1, 2, 3, 4] : List ℝ).length ≠ 9 ∧
      (set_rotation id id [9] [1, 2, 3, 4]).err =
        some CellErr.InvalidArgument ∧
      (set_rotation id id [9] [1, 2, 3, 4]).rotation_ = [9]) := by
  have h1 := (c9_set_rotation_spec id id [] [30, 0, 0]).1 (by simp)
  have h2 := (c9_set_rotation_spec id id [9] [1, 2, 3, 4]).2.2
    (by simp) (by simp)
  exact ⟨⟨by simp, h1.1, h1.2.1, h1.2.2.2⟩, by simp, by simp, h2.1, h2.2⟩

/-- C10: the hash is consistent with `CellInstance` equality — equal
values hash equally — but not injective: `{0, 4096}` and `{1, 0}` are
distinct yet both hash to 4096, since the hash is
`4096 * index_cell + instance`. -/
theorem c10_cellInstanceHash_spec :
    (∀ a b : CellInstance, cellInstanceEq a b = true →
      cellInstanceHash a = cellInstanceHash b) ∧
    cellInstanceEq ⟨0, 4096⟩ ⟨1, 0⟩ = false ∧
    cellInstanceHash ⟨0, 4096⟩ = 4096 ∧
    cellInstanceHash ⟨1, 0⟩ = 4096 := by
  refine ⟨?_, by decide, by decide, by decide⟩
  intro a b h
  obtain ⟨a1, a2⟩ := a
  obtain ⟨b1, b2⟩ := b
  simp only [cellInstanceEq, Bool.and_eq_true, beq_iff_eq] at h
  obtain ⟨rfl, rfl⟩ := h
  rfl

/-- Witness for C10: the consistency implication at a concrete pair. -/
theorem c10_witness :
    cellInstanceEq ⟨5, 7⟩ ⟨5, 7⟩ = true ∧
    cellInstanceHash ⟨5, 7⟩ = cellInstanceHash ⟨5, 7⟩ :=
  ⟨by decide, c10_cellInstanceHash_spec.1 ⟨5, 7⟩ ⟨5, 7⟩ (by decide)⟩

end Openmc
